import Mathlib

/-!
Verification of the hyperdisk core (shard + disk) of the HyperDex storage
engine, as a shallow embedding of `src/hyperdisk/shard.cc` and
`src/hyperdisk/disk.cc`.

Modelling conventions:
* machine integers are `Nat` with explicit `% 2^w` / masking where the C code
  truncates; little-endian host byte order is assumed (as the spec permits);
* the shard's memory mapping is modelled by three stores, mirroring the three
  pointers `m_hash_table`, `m_search_log` (64-bit words indexed by word) and
  `m_data` (bytes indexed by byte offset).  All record writes land at offsets
  `≥ INDEX_SEGMENT_SIZE`, so the aliasing of the three regions inside one
  file is unobservable for the operations modelled here;
* a failing `assert` aborts the program without mutating the shard; it is
  modelled by returning `none` for the result code and the unchanged state;
* `msync` and file-system side effects are modelled as flags/name
  computations, not as effects.

Constants come from `shard_constants.h`, which is not part of the sources;
they are modelled from the spec (§3, §6): 64 KiB-entry tables and a 256 MiB
file.
-/

set_option maxHeartbeats 1000000

namespace Hyperdisk

/-- Modelled from the spec: `HASH_TABLE_ENTRIES` (spec §3, "e.g. 65536"). -/
def HASH_TABLE_ENTRIES : Nat := 65536

/-- Modelled from the spec: `SEARCH_INDEX_ENTRIES` (spec §3, "e.g. 65536"). -/
def SEARCH_INDEX_ENTRIES : Nat := 65536

/-- Modelled from the spec: `HASH_TABLE_SIZE` — 8 bytes per 64-bit slot. -/
def HASH_TABLE_SIZE : Nat := HASH_TABLE_ENTRIES * 8

/-- Modelled from the spec: `SEARCH_INDEX_SIZE` — 16 bytes per entry. -/
def SEARCH_INDEX_SIZE : Nat := SEARCH_INDEX_ENTRIES * 16

/-- Modelled from the spec: `INDEX_SEGMENT_SIZE` — hash table plus search log. -/
def INDEX_SEGMENT_SIZE : Nat := HASH_TABLE_SIZE + SEARCH_INDEX_SIZE

/-- Modelled from the spec: `FILE_SIZE` (spec §6, suggested 256 MiB). -/
def FILE_SIZE : Nat := 268435456

/-- Modelled from the spec: `DATA_SEGMENT_SIZE = FILE_SIZE - INDEX_SEGMENT_SIZE`. -/
def DATA_SEGMENT_SIZE : Nat := FILE_SIZE - INDEX_SEGMENT_SIZE

/-- Modelled from the spec: `HASH_OFFSET_INVALID = (1 << 31)` (spec §3). -/
def HASH_OFFSET_INVALID : Nat := 2147483648

/-- `UINT32_MAX`. -/
def UINT32_MAX : Nat := 4294967295

/-- Modelled from the spec: `HASH_INTO_TABLE` — linear probing works modulo the
table size ("probing starting at `primary_hash mod H`", spec §3). -/
def HASH_INTO_TABLE (x : Nat) : Nat := x % HASH_TABLE_ENTRIES

/-! ### Byte-store primitives (the `m_data` mapping and `memmove`) -/

/-- Point update of a word/byte store. -/
def upd (f : Nat → Nat) (i v : Nat) : Nat → Nat :=
  fun j => if j = i then v else f j

/-- `memmove(m + off, bs, bs.length)`: bytes `bs` land at `[off, off+|bs|)`. -/
def writeBytes (m : Nat → Nat) (off : Nat) (bs : List Nat) : Nat → Nat :=
  fun a => if h : off ≤ a ∧ a < off + bs.length then bs.get ⟨a - off, by omega⟩ else m a

/-- Read `n` consecutive bytes starting at `off`. -/
def readBytes (m : Nat → Nat) (off n : Nat) : List Nat :=
  (List.range n).map (fun i => m (off + i))

/-- Little-endian read of a `uint16_t`. -/
def readU16 (m : Nat → Nat) (off : Nat) : Nat :=
  m off + 256 * m (off + 1)

/-- Little-endian read of a `uint32_t`. -/
def readU32 (m : Nat → Nat) (off : Nat) : Nat :=
  m off + 256 * m (off + 1) + 65536 * m (off + 2) + 16777216 * m (off + 3)

/-- Little-endian read of a `uint64_t`. -/
def readU64 (m : Nat → Nat) (off : Nat) : Nat :=
  readU32 m off + 4294967296 * readU32 m (off + 4)

/-- Little-endian bytes of a `uint16_t`. -/
def u16le (n : Nat) : List Nat :=
  [n % 256, n / 256 % 256]

/-- Little-endian bytes of a `uint32_t`. -/
def u32le (n : Nat) : List Nat :=
  [n % 256, n / 256 % 256, n / 65536 % 256, n / 16777216 % 256]

/-- Little-endian bytes of a `uint64_t`. -/
def u64le (n : Nat) : List Nat :=
  [n % 256, n / 256 % 256, n / 65536 % 256, n / 16777216 % 256,
   n / 4294967296 % 256, n / 1099511627776 % 256,
   n / 281474976710656 % 256, n / 72057594037927936 % 256]

/-- `uint32_t` subtraction `x - y` (wraparound semantics, operands `< 2^32`). -/
def usub32 (x y : Nat) : Nat := (x + 4294967296 - y) % 4294967296

/-- `(x + 7) & ~7` on `uint32_t`: round up to the next multiple of 8
(`~7 = 0xFFFFFFF8 = 4294967288`). -/
def align8 (x : Nat) : Nat := (x + 7) &&& 4294967288

/-! ### Return codes (`hyperdisk/returncode.h`, modelled from spec §7) -/

/-- Modelled from the spec: the `hyperdisk::returncode` taxonomy (spec §7). -/
inductive returncode where
  | SUCCESS | NOTFOUND | WRONGARITY | DATAFULL | HASHFULL | SEARCHFULL
  | SYNCFAILED | DROPFAILED | SPLITFAILED | MISSINGDISK
  deriving DecidableEq, Repr

/-! ### Shard state (`shard.cc`) -/

/-- The mutable state of one shard: the three regions of the mapping plus the
two cursors `m_data_offset` and `m_search_offset`. -/
structure Shard where
  hash_table : Nat → Nat
  search_log : Nat → Nat
  data : Nat → Nat
  data_offset : Nat
  search_offset : Nat

/-- `shard::create` + the `shard` constructor: a zero-filled file with
`m_data_offset = INDEX_SEGMENT_SIZE` and `m_search_offset = 0`. -/
def freshShard : Shard :=
  { hash_table := fun _ => 0
    search_log := fun _ => 0
    data := fun _ => 0
    data_offset := INDEX_SEGMENT_SIZE
    search_offset := 0 }

/-- Low 32 bits of a hash-table word: the stored `primary_hash`. -/
def slotHash (w : Nat) : Nat := w % 4294967296

/-- `static_cast<uint32_t>(this_entry >> 32)`: the stored offset word,
including the `HASH_OFFSET_INVALID` flag bit. -/
def slotOffRaw (w : Nat) : Nat := w / 4294967296 % 4294967296

/-- `static_cast<uint32_t>(this_entry >> 32) & (HASH_OFFSET_INVALID - 1)`:
the stored data offset with the tombstone flag cleared. -/
def slotOff (w : Nat) : Nat := slotOffRaw w % 2147483648

/-- `data_key_size(offset)`: the `uint32_t` at `offset + sizeof(uint64_t)`. -/
def data_key_size (m : Nat → Nat) (off : Nat) : Nat := readU32 m (off + 8)

/-- The key bytes of the record at `off` (at `data_key_offset = off + 12`). -/
def data_key (m : Nat → Nat) (off : Nat) : List Nat :=
  readBytes m (off + 12) (data_key_size m off)

/-- The key comparison performed inside `shard::hash_lookup`:
`key_size == key.size() && memcmp(m_data + data_key_offset(off), key, key_size) == 0`. -/
def keyMatch (m : Nat → Nat) (w : Nat) (k : List Nat) : Prop :=
  data_key_size m (slotOff w) = k.length ∧
    readBytes m (slotOff w + 12) (data_key_size m (slotOff w)) = k

instance (m : Nat → Nat) (w : Nat) (k : List Nat) : Decidable (keyMatch m w k) :=
  inferInstanceAs (Decidable (_ ∧ _))

/-- The probe loop of `shard::hash_lookup(primary_hash, key, *entry, *value)`:
buckets `HASH_INTO_TABLE(start + off)` for `off = 0, 1, …`; stops on a
hash+key match or on a slot whose offset word is zero, returning the bucket
and its raw 64-bit word.  `none` models the final `assert(false)`. -/
def probeAux (s : Shard) (ph : Nat) (k : List Nat) (start : Nat) :
    Nat → Nat → Option (Nat × Nat)
  | _, 0 => none
  | off, fuel+1 =>
    let bucket := HASH_INTO_TABLE (start + off)
    let w := s.hash_table bucket
    if slotHash w = ph ∧ keyMatch s.data w k then some (bucket, w)
    else if slotOffRaw w = 0 then some (bucket, w)
    else probeAux s ph k start (off + 1) fuel

/-- `shard::hash_lookup(primary_hash, key, *entry, *value)`. -/
def hash_lookup (s : Shard) (ph : Nat) (k : List Nat) : Option (Nat × Nat) :=
  probeAux s ph k (HASH_INTO_TABLE ph) 0 HASH_TABLE_ENTRIES

/-- `shard::data_size(key, value)`. -/
def data_size (k : List Nat) (v : List (List Nat)) : Nat :=
  8 + 4 + 2 + k.length + 4 * v.length + (v.map List.length).sum

/-- The per-attribute `memmove` loop of `shard::put`: for each attribute,
write its `uint32_t` size then its bytes; returns the store and the final
`curr_offset`. -/
def writeVals : (Nat → Nat) → Nat → List (List Nat) → (Nat → Nat) × Nat
  | m, cur, [] => (m, cur)
  | m, cur, a :: rest =>
    writeVals (writeBytes (writeBytes m cur (u32le a.length)) (cur + 4) a)
      (cur + 4 + a.length) rest

/-- The `while (low <= high)` binary search of `shard::invalidate_search_log`,
with explicit fuel (the range halves each iteration, so any fuel of at least
`log2` of the range is enough; callers pass 200). -/
def invalidateAux (slog : Nat → Nat) (ti iw : Nat) : Int → Int → Nat → (Nat → Nat)
  | _, _, 0 => slog
  | low, high, fuel+1 =>
    if low ≤ high then
      let mid : Int := low + (high - low) / 2
      let mid_offset := slog (mid.toNat * 2 + 1) % 4294967296
      if mid_offset = 0 ∨ mid_offset > ti then invalidateAux slog ti iw low (mid - 1) fuel
      else if mid_offset < ti then invalidateAux slog ti iw (mid + 1) high fuel
      else upd slog (mid.toNat * 2 + 1) ((iw <<< 32) ||| ti)
    else slog

/-- `shard::invalidate_search_log(to_invalidate, invalidate_with)`. -/
def invalidate_search_log (slog : Nat → Nat) (ti iw : Nat) : Nat → Nat :=
  invalidateAux slog ti iw 0 (SEARCH_INDEX_ENTRIES : Nat) 200

/-- `shard::put(primary_hash, secondary_hash, key, value, version)`.

The result is `(rc?, new state, async?)`: `rc? = none` models the aborting
`assert(false)` inside `hash_lookup`; the `Bool` records whether the
4 MiB-boundary test `(m_data_offset & ~(1<<22)) != (new_data_offset & ~(1<<22))`
fired and `async()` was invoked (`~(1<<22) = 0xFFBFFFFF = 4290772991`). -/
def Shard.put (s : Shard) (ph sh : Nat) (k : List Nat) (v : List (List Nat))
    (ver : Nat) : Option returncode × Shard × Bool :=
  if FILE_SIZE < data_size k v + s.data_offset then (some .DATAFULL, s, false)
  else if s.search_offset = SEARCH_INDEX_ENTRIES then (some .SEARCHFULL, s, false)
  else
    match hash_lookup s ph k with
    | none => (none, s, false)
    | some (entry, w) =>
      let table_offset := slotOffRaw w
      let d1 := writeBytes s.data s.data_offset (u64le ver)
      let d2 := writeBytes d1 (s.data_offset + 8) (u32le k.length)
      let d3 := writeBytes d2 (s.data_offset + 12) k
      let d4 := writeBytes d3 (s.data_offset + 12 + k.length) (u16le v.length)
      let dv := writeVals d4 (s.data_offset + 14 + k.length) v
      let slog1 := if table_offset < HASH_OFFSET_INVALID then
          invalidate_search_log s.search_log table_offset s.data_offset
        else s.search_log
      let slog2 := upd slog1 (s.search_offset * 2) ((sh <<< 32) ||| ph)
      let slog3 := upd slog2 (s.search_offset * 2 + 1) s.data_offset
      let ht' := upd s.hash_table entry ((s.data_offset <<< 32) ||| ph)
      let new_off := align8 dv.2
      (some .SUCCESS,
       { hash_table := ht', search_log := slog3, data := dv.1,
         data_offset := new_off, search_offset := s.search_offset + 1 },
       (s.data_offset &&& 4290772991) != (new_off &&& 4290772991))

/-- `shard::del(primary_hash, key)`. -/
def Shard.del (s : Shard) (ph : Nat) (k : List Nat) : Option returncode × Shard :=
  match hash_lookup s ph k with
  | none => (none, s)
  | some (entry, w) =>
    let table_offset := slotOffRaw w
    if table_offset = 0 ∨ HASH_OFFSET_INVALID ≤ table_offset then (some .NOTFOUND, s)
    else if FILE_SIZE < s.data_offset + 8 then (some .DATAFULL, s)
    else
      (some .SUCCESS,
       { s with
         search_log := invalidate_search_log s.search_log table_offset s.data_offset
         data_offset := s.data_offset + 8
         hash_table := upd s.hash_table entry
           ((table_offset <<< 32) ||| (HASH_OFFSET_INVALID <<< 32) ||| ph) })

/-- `shard::data_version(offset)`. -/
def data_version (m : Nat → Nat) (off : Nat) : Nat := readU64 m off

/-- The attribute-reading loop of `shard::data_value`. -/
def readVals (m : Nat → Nat) : Nat → Nat → List (List Nat)
  | _, 0 => []
  | cur, n+1 => readBytes m (cur + 4) (readU32 m cur) ::
      readVals m (cur + 4 + readU32 m cur) n

/-- `shard::data_value(offset, keysize, *value)`. -/
def data_value (m : Nat → Nat) (off ks : Nat) : List (List Nat) :=
  readVals m (off + 12 + ks + 2) (readU16 m (off + 12 + ks))

/-- A point-lookup result: `shard::get` / `disk::get` yield `NOTFOUND` or
`SUCCESS` with the value and version. -/
inductive GetRes where
  | notfound
  | found (value : List (List Nat)) (version : Nat)
  deriving DecidableEq, Repr

/-- `shard::get(primary_hash, key, *value, *version)`; `none` models the
aborting `assert(false)` inside `hash_lookup`. -/
def Shard.get (s : Shard) (ph : Nat) (k : List Nat) : Option GetRes :=
  match hash_lookup s ph k with
  | none => none
  | some (_, w) =>
    let table_offset := slotOffRaw w
    if table_offset = 0 ∨ HASH_OFFSET_INVALID ≤ table_offset then some .notfound
    else some (.found (data_value s.data table_offset k.length)
                      (data_version s.data table_offset))

/-- The `for (i = 1; i < SEARCH_INDEX_ENTRIES; ++i)` loop of
`shard::stale_space`, including the unconditional trailing
`stale_data += end - start` after the loop.  Subtractions are `uint32_t`.
`fuel` counts the remaining iterations (`SEARCH_INDEX_ENTRIES - i`);
exhaustion is exactly the `i == SEARCH_INDEX_ENTRIES` exit. -/
def staleLoop (s : Shard) : Nat → Nat → Nat → Nat → Nat → Nat × Nat
  | _, 0, start, sd, sn =>
    (sd + usub32 s.data_offset start,
     sn + if usub32 s.data_offset start ≠ 0 then 1 else 0)
  | i, fuel+1, start, sd, sn =>
    let e := s.search_log (2 * i + 1) % 4294967296
    if e = 0 then
      (sd + usub32 s.data_offset start,
       sn + if usub32 s.data_offset start ≠ 0 then 1 else 0)
    else
      if 0 < s.search_log (2 * i + 1) / 4294967296 % 4294967296 then
        staleLoop s (i + 1) fuel e (sd + usub32 e start) (sn + 1)
      else
        staleLoop s (i + 1) fuel e sd sn

/-- `shard::stale_space()`.  The `double` arithmetic
`100.0 * x / DATA_SEGMENT_SIZE` followed by conversion to `int` is modelled
exactly as the rational value truncated toward zero, i.e. `Nat` division
(the `std::max` of the two doubles commutes with the floor). -/
def stale_space (s : Shard) : Nat :=
  let r := staleLoop s 1 (SEARCH_INDEX_ENTRIES - 1) (s.search_log 1 % 4294967296) 0 0
  max (100 * r.1 / DATA_SEGMENT_SIZE) (100 * r.2 / SEARCH_INDEX_ENTRIES)

/-! ### Shard operation sequences (for the hash-slot stability invariant) -/

/-- One mutating shard operation (the arguments of `shard::put` / `shard::del`). -/
inductive shard_op where
  | put (ph sh : Nat) (k : List Nat) (v : List (List Nat)) (ver : Nat)
  | del (ph : Nat) (k : List Nat)

/-- Argument well-formedness guaranteed by the C types: hashes are `uint32_t`
and key lengths fit in 32 bits (spec §3: "length fits in 32 bits"). -/
def ValidOp : shard_op → Prop
  | .put ph sh k _ _ => ph < 4294967296 ∧ sh < 4294967296 ∧ k.length < 4294967296
  | .del ph k => ph < 4294967296 ∧ k.length < 4294967296

instance : DecidablePred ValidOp := fun op =>
  match op with
  | .put ph sh k _ _ =>
    inferInstanceAs (Decidable (ph < 4294967296 ∧ sh < 4294967296 ∧ k.length < 4294967296))
  | .del ph k => inferInstanceAs (Decidable (ph < 4294967296 ∧ k.length < 4294967296))

/-- All operations in a sequence are well-typed. -/
def ValidOps (l : List shard_op) : Prop := ∀ op ∈ l, ValidOp op

instance : DecidablePred ValidOps := fun l => List.decidableBAll _ l

/-- Apply one operation to a shard state (the state reached after the call;
a failing `assert` leaves the state unchanged). -/
def applyOp (s : Shard) : shard_op → Shard
  | .put ph sh k v ver => (Shard.put s ph sh k v ver).2.1
  | .del ph k => (Shard.del s ph k).2

/-- The shard state after running `ops` on a freshly created shard. -/
def runOps (ops : List shard_op) : Shard := ops.foldl applyOp freshShard

/-- Slot `b` is assigned to the pair `(ph, k)`: its word is nonzero, stores
`ph` in the hash half, and its (flag-cleared) offset points at a record whose
key bytes are `k`. -/
def slotAssigned (s : Shard) (b ph : Nat) (k : List Nat) : Prop :=
  s.hash_table b ≠ 0 ∧ slotHash (s.hash_table b) = ph ∧
    data_key s.data (slotOff (s.hash_table b)) = k

instance (s : Shard) (b ph : Nat) (k : List Nat) : Decidable (slotAssigned s b ph k) :=
  inferInstanceAs (Decidable (_ ∧ _ ∧ _))

/-! ### Disk-level model (`disk.cc`) -/

/-- Modelled from the spec: the `coordinate` value type (spec §3);
`coordinate.h` is not among the sources. -/
structure coordinate where
  primary_mask : Nat
  primary_hash : Nat
  secondary_mask : Nat
  secondary_hash : Nat
  deriving DecidableEq, Repr

/-- Modelled from the spec: `A` contains `B` iff
`(A.pm & (A.ph ^ B.ph)) == 0 ∧ (A.sm & (A.sh ^ B.sh)) == 0` (spec §3). -/
def coordinate.contains (a b : coordinate) : Prop :=
  a.primary_mask &&& (a.primary_hash ^^^ b.primary_hash) = 0 ∧
    a.secondary_mask &&& (a.secondary_hash ^^^ b.secondary_hash) = 0

instance (a b : coordinate) : Decidable (a.contains b) :=
  inferInstanceAs (Decidable (_ ∧ _))

/-- Modelled from the spec: `primary_contains` uses only the primary half. -/
def coordinate.primary_contains (a b : coordinate) : Prop :=
  a.primary_mask &&& (a.primary_hash ^^^ b.primary_hash) = 0

instance (a b : coordinate) : Decidable (a.primary_contains b) :=
  inferInstanceAs (Decidable (_ = _))

/-- Modelled from the spec: a WAL entry `(coord, key, value, version)`
(`log_entry.h` is not among the sources); a delete entry carries an empty
value and version 0. -/
structure log_entry where
  coord : coordinate
  key : List Nat
  value : List (List Nat)
  version : Nat

/-- The hash functions are external collaborators (spec §1 abstracts them):
`hkey` models `CityHash64(key)` and `hval` models
`lower_interlace(CityHash64(value))`. -/
structure HashFns where
  hkey : List Nat → Nat
  hval : List (List Nat) → Nat

/-- The disk state visible to `get`/`put`/`del`: arity, the WAL (a FIFO in
append order), and the published shard vector. -/
structure disk where
  arity : Nat
  log : List log_entry
  shards : List (coordinate × Shard)

/-- `disk::get_coordinate(key)`: `(UINT32_MAX, low32(CityHash64(key)), 0, 0)`. -/
def get_coordinate (hf : HashFns) (k : List Nat) : coordinate :=
  ⟨UINT32_MAX, hf.hkey k % 4294967296, 0, 0⟩

/-- `disk::get_coordinate(key, value)`:
`(UINT32_MAX, low32(CityHash64(key)), UINT32_MAX, low32(lower_interlace(...)))`. -/
def get_coordinate_kv (hf : HashFns) (k : List Nat) (v : List (List Nat)) : coordinate :=
  ⟨UINT32_MAX, hf.hkey k % 4294967296, UINT32_MAX, hf.hval v % 4294967296⟩

/-- `disk::disk(directory, arity)`: one starting shard holding everything,
with coordinate `(0, 0, 0, 0)`. -/
def disk.new (arity : Nat) : disk :=
  { arity := arity, log := [], shards := [(⟨0, 0, 0, 0⟩, freshShard)] }

/-- `disk::put(key, value, version)`: arity check, then append to the WAL.
No shard is touched. -/
def disk.put (hf : HashFns) (d : disk) (k : List Nat) (v : List (List Nat))
    (ver : Nat) : returncode × disk :=
  if v.length + 1 ≠ d.arity then (.WRONGARITY, d)
  else (.SUCCESS, { d with log := d.log ++ [⟨get_coordinate_kv hf k v, k, v, ver⟩] })

/-- `disk::del(key)`: append a deletion entry to the WAL. -/
def disk.del (hf : HashFns) (d : disk) (k : List Nat) : returncode × disk :=
  (.SUCCESS, { d with log := d.log ++ [⟨get_coordinate hf k, k, [], 0⟩] })

/-- The shard walk of `disk::get`: consult each shard whose coordinate
primary-contains the lookup coordinate, keeping the last result and stopping
at the first `SUCCESS`; `cur` is the running `shard_res` (initially
`NOTFOUND`).  `none` propagates an aborting shard lookup. -/
def shard_walk (coord : coordinate) (ph : Nat) (k : List Nat) :
    GetRes → List (coordinate × Shard) → Option GetRes
  | cur, [] => some cur
  | cur, (c, sh) :: rest =>
    if c.primary_contains coord then
      match Shard.get sh ph k with
      | none => none
      | some r =>
        match r with
        | .found v ver => some (.found v ver)
        | .notfound => shard_walk coord ph k .notfound rest
    else shard_walk coord ph k cur rest

/-- One step of the WAL scan of `disk::get`: a matching put entry
(`secondary_mask == UINT32_MAX`) sets `wal_res = Found(value, version)`, any
other matching entry sets `wal_res = NOTFOUND`; `found` latches. -/
def walStep (coord : coordinate) (k : List Nat) (acc : Bool × GetRes)
    (e : log_entry) : Bool × GetRes :=
  if e.coord.primary_contains coord ∧ e.key = k then
    (true,
     if e.coord.secondary_mask = UINT32_MAX then .found e.value e.version
     else .notfound)
  else acc

/-- `disk::get(key, *value, *version)`: shard walk, then the WAL scan whose
last matching entry overrides the shard result. -/
def disk.get (hf : HashFns) (d : disk) (k : List Nat) : Option GetRes :=
  let coord := get_coordinate hf k
  match shard_walk coord coord.primary_hash k .notfound d.shards with
  | none => none
  | some shard_res =>
    let wal := d.log.foldl (walStep coord k) (false, .notfound)
    some (if wal.1 then wal.2 else shard_res)

/-- The entries of the WAL that match a `get(k)`: coordinate primary-contains
the lookup coordinate and the key is `k` (the loop condition of `disk::get`). -/
def walMatches (hf : HashFns) (d : disk) (k : List Nat) : List log_entry :=
  d.log.filter (fun e =>
    decide (e.coord.primary_contains (get_coordinate hf k) ∧ e.key = k))

/-- The three possible outcomes of `disk::deal_with_full_shard`. -/
inductive SplitAction where
  | clean_shard | split_failed | split_shard
  deriving DecidableEq, Repr

/-- The decision logic of `disk::deal_with_full_shard(shard_num)`, applied to
the shard and its coordinate: clean when `stale_space() >= 30`; otherwise the
`primary_mask == UINT32_MAX || secondary_mask == UINT32_MAX` branch reports
`SPLITFAILED`; otherwise split four ways. -/
def deal_with_full_shard (s : Shard) (c : coordinate) : SplitAction :=
  if 30 ≤ stale_space s then .clean_shard
  else if c.primary_mask = UINT32_MAX ∨ c.secondary_mask = UINT32_MAX then .split_failed
  else .split_shard

/-! ### `which_to_split` (`disk.cc`, static helper for `split_shard`) -/

/-- The `for (int i = 1; i < 32; ++i)` loop of `which_to_split`, carrying
`(diff, pos)`; `fuel` is the number of remaining iterations. -/
def wtsAux (mask : Nat) (zeros ones : Nat → Int) : Nat → Nat → Int → Nat → Nat
  | _, 0, _, pos => pos
  | i, fuel+1, diff, pos =>
    if mask &&& (1 <<< i) = 0 then
      let tmpdiff := ones i - zeros i
      let tmpdiff := if tmpdiff < 0 then -tmpdiff else tmpdiff
      if tmpdiff < diff then wtsAux mask zeros ones (i + 1) fuel tmpdiff i
      else wtsAux mask zeros ones (i + 1) fuel diff pos
    else wtsAux mask zeros ones (i + 1) fuel diff pos

/-- `which_to_split(mask, zeros, ones)`; the initial `diff` is
`INT32_MAX = 2147483647` (already nonnegative, so the
`(diff < 0) ? -diff : diff` line leaves it unchanged) and `pos = 0`. -/
def which_to_split (mask : Nat) (zeros ones : Nat → Int) : Nat :=
  wtsAux mask zeros ones 1 31 2147483647 0

/-! ### Shard file names (`disk.cc`) -/

/-- One lowercase hex digit. -/
def hexDigit (n : Nat) : Char :=
  if n < 10 then Char.ofNat (48 + n) else Char.ofNat (87 + n)

/-- `std::hex << std::setfill('0') << std::setw(16)`: 16 lowercase hex
digits, zero padded, most significant first. -/
def hex16 (n : Nat) : String :=
  String.mk ((List.range 16).map (fun i => hexDigit (n / 16 ^ (15 - i) % 16)))

/-- `disk::shard_filename(coordinate)`. -/
def shard_filename (c : coordinate) : String :=
  hex16 c.primary_mask ++ "-" ++ hex16 c.primary_hash ++ "-" ++
    hex16 c.secondary_mask ++ "-" ++ hex16 c.secondary_hash

/-- `disk::shard_tmp_filename(coordinate)`. -/
def shard_tmp_filename (c : coordinate) : String :=
  hex16 c.primary_mask ++ "-" ++ hex16 c.primary_hash ++ "-" ++
    hex16 c.secondary_mask ++ "-" ++ hex16 c.secondary_hash ++ "-tmp"

/-- The name carried by the file produced by `disk::create_tmp_shard(c)`:
when a spare shard is available the code renames the spare file to
`shard_filename(c)` (not the tmp name); only a freshly created shard is
created at `shard_tmp_filename(c)`. -/
def create_tmp_shard_name (spare : Bool) (c : coordinate) : String :=
  if spare then shard_filename c else shard_tmp_filename c

/-! ### Spec-side formulas for `stale_space` (refinement comparison) -/

/-- Search-log entry `i`'s `data_offset` (low word of `m_search_log[2i+1]`). -/
def logOff (s : Shard) (i : Nat) : Nat := s.search_log (2 * i + 1) % 4294967296

/-- Search-log entry `i`'s invalidator (high word of `m_search_log[2i+1]`). -/
def logInv (s : Shard) (i : Nat) : Nat :=
  s.search_log (2 * i + 1) / 4294967296 % 4294967296

/-- Spec-side formula, following the claim's words: for each search-log entry
whose upper (invalidator) word is nonzero, add its record length — the
successor entry's `data_offset` (or `m_data_offset` for the last live entry)
minus its own `data_offset`. -/
def claim_stale_bytes (s : Shard) : Nat :=
  ((List.range SEARCH_INDEX_ENTRIES).map (fun i =>
    if logInv s i ≠ 0 then
      usub32 (if i + 1 < SEARCH_INDEX_ENTRIES ∧ logOff s (i + 1) ≠ 0
              then logOff s (i + 1) else s.data_offset)
             (logOff s i)
    else 0)).sum

/-- Spec-side formula, following the claim's words: the number of search-log
entries whose upper (invalidator) word is nonzero. -/
def claim_stale_count (s : Shard) : Nat :=
  ((List.range SEARCH_INDEX_ENTRIES).filter (fun i => decide (logInv s i ≠ 0))).length

/-- Spec-side formula, following the claim's words:
`max(100·stale_bytes/DATA_SEGMENT_SIZE, 100·stale_count/S)`. -/
def claim_stale_space (s : Shard) : Nat :=
  max (100 * claim_stale_bytes s / DATA_SEGMENT_SIZE)
      (100 * claim_stale_count s / SEARCH_INDEX_ENTRIES)

/-- What the code actually accumulates, as a structural recursion over the
live entries `i, i+1, …, i+c-1` (each gated by entry `j`'s invalidator but
measuring entry `j-1`'s record length), plus the final span
`m_data_offset - offset(last)` which is always added; returns
`(stale_bytes, stale_count)`. -/
def staleTail (s : Shard) : Nat → Nat → Nat × Nat
  | i, 0 =>
    (usub32 s.data_offset (logOff s (i - 1)),
     if usub32 s.data_offset (logOff s (i - 1)) ≠ 0 then 1 else 0)
  | i, c+1 =>
    let rest := staleTail s (i + 1) c
    (if 0 < logInv s i then usub32 (logOff s i) (logOff s (i - 1)) + rest.1 else rest.1,
     if 0 < logInv s i then 1 + rest.2 else rest.2)

/-! ### Reachable-state invariant of the shard hash table -/

/-- A nonzero hash-table slot of a reachable shard state: its flag-cleared
offset lies in the data segment and the record header plus key bytes it
points at sit below the append frontier `m_data_offset`. -/
def GoodSlot (s : Shard) (b : Nat) : Prop :=
  INDEX_SEGMENT_SIZE ≤ slotOff (s.hash_table b) ∧
    slotOff (s.hash_table b) + 12 + data_key_size s.data (slotOff (s.hash_table b))
      ≤ s.data_offset

/-- The invariant maintained by every `shard::put` / `shard::del` from a
fresh shard. -/
structure Inv (s : Shard) : Prop where
  lo : INDEX_SEGMENT_SIZE ≤ s.data_offset
  hi : s.data_offset ≤ FILE_SIZE
  low0 : ∀ a, a < INDEX_SEGMENT_SIZE → s.data a = 0
  good : ∀ b, b < HASH_TABLE_ENTRIES → s.hash_table b ≠ 0 → GoodSlot s b
  uniq : ∀ b b', b < HASH_TABLE_ENTRIES → b' < HASH_TABLE_ENTRIES →
    s.hash_table b ≠ 0 → s.hash_table b' ≠ 0 →
    slotHash (s.hash_table b) = slotHash (s.hash_table b') →
    data_key s.data (slotOff (s.hash_table b)) =
      data_key s.data (slotOff (s.hash_table b')) → b = b'
  chain : ∀ b, b < HASH_TABLE_ENTRIES → s.hash_table b ≠ 0 →
    ∀ d, d < (b + HASH_TABLE_ENTRIES - slotHash (s.hash_table b) % HASH_TABLE_ENTRIES)
              % HASH_TABLE_ENTRIES →
      s.hash_table ((slotHash (s.hash_table b) % HASH_TABLE_ENTRIES + d)
                     % HASH_TABLE_ENTRIES) ≠ 0

/-! ### Concrete states used to evaluate the code -/

/-- A shard state with a single live 3 MB record: one search-log entry at
offset `INDEX_SEGMENT_SIZE` with a zero invalidator, and
`m_data_offset = INDEX_SEGMENT_SIZE + 3000024`. -/
def oneBigRecordShard : Shard :=
  { hash_table := fun _ => 0
    search_log := fun j => if j = 1 then INDEX_SEGMENT_SIZE else 0
    data := fun _ => 0
    data_offset := INDEX_SEGMENT_SIZE + 3000024
    search_offset := 1 }

/-- The probe of `hash_lookup` terminates at bucket `b`: either the hash and
key match, or the slot's offset word is zero. -/
def probeStops (s : Shard) (ph : Nat) (k : List Nat) (b : Nat) : Prop :=
  (slotHash (s.hash_table b) = ph ∧ keyMatch s.data (s.hash_table b) k) ∨
    slotOffRaw (s.hash_table b) = 0

/-- Every hash-table slot that was nonzero stays nonzero with the same stored
hash and the same record key — the pair a slot is assigned to never changes. -/
def slotsPreserved (s s' : Shard) : Prop :=
  ∀ b, b < HASH_TABLE_ENTRIES → s.hash_table b ≠ 0 →
    s'.hash_table b ≠ 0 ∧
    slotHash (s'.hash_table b) = slotHash (s.hash_table b) ∧
    data_key s'.data (slotOff (s'.hash_table b)) =
      data_key s.data (slotOff (s.hash_table b))

/-! # Theorems -/

section Lemmas

/-! ### Bit-level helpers -/

theorem shiftLeft32_lor_eq_add (a b : Nat) (hb : b < 4294967296) :
    (a <<< 32) ||| b = a * 4294967296 + b := by
  have hb' : b < 2 ^ 32 := by
    have : (2 : Nat) ^ 32 = 4294967296 := by norm_num
    omega
  have h := (Nat.mul_add_lt_is_or hb' a).symm
  rw [Nat.shiftLeft_eq]
  calc a * 2 ^ 32 ||| b = 2 ^ 32 * a ||| b := by rw [Nat.mul_comm]
    _ = 2 ^ 32 * a + b := h
    _ = a * 4294967296 + b := by rw [Nat.mul_comm]

theorem land_mask8 (x : Nat) (hx : x < 4294967296) :
    x &&& 4294967288 = x / 8 * 8 := by
  have hmask : (4294967288 : Nat) = (2 ^ 29 - 1) <<< 3 := by decide
  have hdiv : x / 8 * 8 = (x >>> 3) <<< 3 := by
    rw [Nat.shiftRight_eq_div_pow, Nat.shiftLeft_eq]
  rw [hmask, hdiv]
  apply Nat.eq_of_testBit_eq
  intro i
  rcases Nat.lt_or_ge i 3 with h3 | h3
  · rw [Nat.testBit_and, Nat.testBit_shiftLeft, Nat.testBit_shiftLeft]
    have e2 : decide (i ≥ 3) = false := by
      simp only [decide_eq_false_iff_not]; omega
    rw [e2]
    simp
  · rcases Nat.lt_or_ge i 32 with h32 | h32
    · have e1 : 3 + (i - 3) = i := by omega
      rw [Nat.testBit_and, Nat.testBit_shiftLeft, Nat.testBit_shiftLeft,
        Nat.testBit_shiftRight, Nat.testBit_two_pow_sub_one, e1]
      have e2 : decide (i ≥ 3) = true := by
        simp only [decide_eq_true_eq]; omega
      have e3 : decide (i - 3 < 29) = true := by
        simp only [decide_eq_true_eq]; omega
      rw [e2, e3]
      simp [Bool.and_comm]
    · have e1 : 3 + (i - 3) = i := by omega
      rw [Nat.testBit_and, Nat.testBit_shiftLeft, Nat.testBit_shiftLeft,
        Nat.testBit_shiftRight, Nat.testBit_two_pow_sub_one, e1]
      have e3 : decide (i - 3 < 29) = false := by
        simp only [decide_eq_false_iff_not]; omega
      have hx' : x < 2 ^ i := lt_of_lt_of_le hx (by
        have h4 : (4294967296 : Nat) = 2 ^ 32 := by norm_num
        rw [h4]
        exact Nat.pow_le_pow_right (by omega) h32)
      rw [e3, Nat.testBit_lt_two_pow hx']
      simp

theorem align8_ge (x : Nat) (hx : x ≤ 268435456) : x ≤ align8 x := by
  have h := land_mask8 (x + 7) (by omega)
  unfold align8
  rw [h]
  omega

theorem align8_le (x : Nat) (hx : x ≤ 268435456) : align8 x ≤ 268435456 := by
  have h := land_mask8 (x + 7) (by omega)
  unfold align8
  rw [h]
  omega

/-- Decomposition of a hash-table word written by `put`. -/
theorem slot_word_put (D ph : Nat) (hD0 : 0 < D) (hD : D < 2147483648)
    (hph : ph < 4294967296) :
    slotHash ((D <<< 32) ||| ph) = ph ∧ slotOffRaw ((D <<< 32) ||| ph) = D ∧
      slotOff ((D <<< 32) ||| ph) = D ∧ (D <<< 32) ||| ph ≠ 0 := by
  rw [shiftLeft32_lor_eq_add D ph hph]
  simp only [slotHash, slotOffRaw, slotOff]
  refine ⟨by omega, by omega, by omega, by omega⟩

/-- Decomposition of a hash-table word written by `del`
(`(table_offset << 32) | (HASH_OFFSET_INVALID << 32) | primary_hash`). -/
theorem slot_word_del (t ph : Nat) (ht : t < 2147483648) (hph : ph < 4294967296) :
    slotHash ((t <<< 32) ||| (HASH_OFFSET_INVALID <<< 32) ||| ph) = ph ∧
      slotOffRaw ((t <<< 32) ||| (HASH_OFFSET_INVALID <<< 32) ||| ph) = t + 2147483648 ∧
      slotOff ((t <<< 32) ||| (HASH_OFFSET_INVALID <<< 32) ||| ph) = t ∧
      (t <<< 32) ||| (HASH_OFFSET_INVALID <<< 32) ||| ph ≠ 0 := by
  have h1 : (t <<< 32) ||| (HASH_OFFSET_INVALID <<< 32) = (t + 2147483648) <<< 32 := by
    have ht32 : t <<< 32 = t * 4294967296 := by
      rw [Nat.shiftLeft_eq]
    have hH32 : HASH_OFFSET_INVALID <<< 32 = 2147483648 * 4294967296 := by decide
    have hc : (2147483648 * 4294967296 : Nat) = 1 <<< 63 := by decide
    have htlt : t * 4294967296 < 9223372036854775808 := by omega
    rw [ht32, hH32, Nat.lor_comm, hc]
    have h2 : (1 <<< 63) ||| t * 4294967296 = 9223372036854775808 + t * 4294967296 := by
      have h3 : (1 <<< 63 : Nat) = 2 ^ 63 := by decide
      have h4 : t * 4294967296 < 2 ^ 63 := by
        have : (2 : Nat) ^ 63 = 9223372036854775808 := by norm_num
        omega
      rw [h3]
      have h5 := Nat.mul_add_lt_is_or h4 1
      simp only [Nat.mul_one] at h5
      omega
    rw [h2, Nat.shiftLeft_eq]
    have : (2 : Nat) ^ 32 = 4294967296 := by norm_num
    rw [this]
    ring
  rw [h1, shiftLeft32_lor_eq_add _ ph hph]
  simp only [slotHash, slotOffRaw, slotOff]
  refine ⟨by omega, by omega, by omega, by omega⟩

/-! ### Byte-store lemmas -/

theorem writeBytes_lt (m : Nat → Nat) (off : Nat) (bs : List Nat) (a : Nat)
    (h : a < off) : writeBytes m off bs a = m a := by
  unfold writeBytes
  rw [dif_neg]
  omega

theorem writeBytes_ge (m : Nat → Nat) (off : Nat) (bs : List Nat) (a : Nat)
    (h : off + bs.length ≤ a) : writeBytes m off bs a = m a := by
  unfold writeBytes
  rw [dif_neg]
  omega

theorem readBytes_length (m : Nat → Nat) (off n : Nat) :
    (readBytes m off n).length = n := by
  simp [readBytes]

theorem readBytes_congr (m1 m2 : Nat → Nat) (off n : Nat)
    (h : ∀ a, off ≤ a → a < off + n → m1 a = m2 a) :
    readBytes m1 off n = readBytes m2 off n := by
  unfold readBytes
  apply List.map_congr_left
  intro i hi
  rw [List.mem_range] at hi
  exact h (off + i) (by omega) (by omega)

theorem readBytes_writeBytes (m : Nat → Nat) (off : Nat) (bs : List Nat) :
    readBytes (writeBytes m off bs) off bs.length = bs := by
  apply List.ext_getElem
  · simp [readBytes]
  · intro i h1 h2
    simp only [readBytes, List.getElem_map, List.getElem_range]
    unfold writeBytes
    rw [dif_pos (by simp [readBytes] at h1; omega)]
    simp

theorem readU16_congr (m1 m2 : Nat → Nat) (off : Nat)
    (h : ∀ a, off ≤ a → a < off + 2 → m1 a = m2 a) :
    readU16 m1 off = readU16 m2 off := by
  unfold readU16
  rw [h off (by omega) (by omega), h (off + 1) (by omega) (by omega)]

theorem readU32_congr (m1 m2 : Nat → Nat) (off : Nat)
    (h : ∀ a, off ≤ a → a < off + 4 → m1 a = m2 a) :
    readU32 m1 off = readU32 m2 off := by
  unfold readU32
  rw [h off (by omega) (by omega), h (off + 1) (by omega) (by omega),
    h (off + 2) (by omega) (by omega), h (off + 3) (by omega) (by omega)]

theorem readU32_u32le (m : Nat → Nat) (off v : Nat) :
    readU32 (writeBytes m off (u32le v)) off = v % 4294967296 := by
  unfold readU32 writeBytes
  rw [dif_pos (by simp [u32le]), dif_pos (by simp [u32le]),
    dif_pos (by simp [u32le]), dif_pos (by simp [u32le])]
  simp only [u32le]
  norm_num [List.get]
  omega

/-! ### The record bytes written by `shard::put` -/

theorem writeVals_frame (v : List (List Nat)) :
    ∀ (m : Nat → Nat) (cur a : Nat), a < cur → (writeVals m cur v).1 a = m a := by
  induction v with
  | nil => intro m cur a _; rfl
  | cons x rest ih =>
    intro m cur a ha
    unfold writeVals
    rw [ih _ _ _ (by omega), writeBytes_lt _ _ _ _ (by omega),
      writeBytes_lt _ _ _ _ (by omega)]

theorem writeVals_cursor (v : List (List Nat)) :
    ∀ (m : Nat → Nat) (cur : Nat),
      (writeVals m cur v).2 = cur + 4 * v.length + (v.map List.length).sum := by
  induction v with
  | nil => intro m cur; simp [writeVals]
  | cons x rest ih =>
    intro m cur
    unfold writeVals
    rw [ih]
    simp [List.length_cons]
    omega

/-- The reads `shard::hash_lookup` performs on a freshly written record:
the stored `key_size` is `|k| mod 2^32`, the stored key bytes are `k`, bytes
below the write position are untouched, and the final `curr_offset` is the
write position plus `data_size`. -/
theorem put_record_reads (m : Nat → Nat) (D : Nat) (k : List Nat)
    (v : List (List Nat)) (ver : Nat) :
    (∀ a, a < D →
      (writeVals (writeBytes (writeBytes (writeBytes (writeBytes m D (u64le ver))
        (D + 8) (u32le k.length)) (D + 12) k) (D + 12 + k.length) (u16le v.length))
        (D + 14 + k.length) v).1 a = m a) ∧
    readU32 (writeVals (writeBytes (writeBytes (writeBytes (writeBytes m D (u64le ver))
        (D + 8) (u32le k.length)) (D + 12) k) (D + 12 + k.length) (u16le v.length))
        (D + 14 + k.length) v).1 (D + 8) = k.length % 4294967296 ∧
    readBytes (writeVals (writeBytes (writeBytes (writeBytes (writeBytes m D (u64le ver))
        (D + 8) (u32le k.length)) (D + 12) k) (D + 12 + k.length) (u16le v.length))
        (D + 14 + k.length) v).1 (D + 12) k.length = k ∧
    (writeVals (writeBytes (writeBytes (writeBytes (writeBytes m D (u64le ver))
        (D + 8) (u32le k.length)) (D + 12) k) (D + 12 + k.length) (u16le v.length))
        (D + 14 + k.length) v).2 = D + data_size k v := by
  refine ⟨?_, ?_, ?_, ?_⟩
  · intro a ha
    rw [writeVals_frame _ _ _ _ (by omega), writeBytes_lt _ _ _ _ (by omega),
      writeBytes_lt _ _ _ _ (by omega),
      writeBytes_lt _ _ _ _ (by omega),
      writeBytes_lt _ _ _ _ (by omega)]
  · rw [readU32_congr _ (writeBytes (writeBytes m D (u64le ver)) (D + 8) (u32le k.length))
      (D + 8) ?_]
    · exact readU32_u32le _ _ _
    · intro a h1 h2
      rw [writeVals_frame _ _ _ _ (by omega),
        writeBytes_lt _ _ _ _ (by omega),
        writeBytes_lt _ _ _ _ (by omega)]
  · rw [readBytes_congr _ (writeBytes (writeBytes (writeBytes m D (u64le ver))
        (D + 8) (u32le k.length)) (D + 12) k) (D + 12) k.length ?_]
    · exact readBytes_writeBytes _ _ _
    · intro a h1 h2
      rw [writeVals_frame _ _ _ _ (by omega),
        writeBytes_lt _ _ _ _ (by omega)]
  · rw [writeVals_cursor]
    unfold data_size
    omega

/-! ### `keyMatch` and `data_key` -/

theorem keyMatch_iff (m : Nat → Nat) (w : Nat) (k : List Nat) :
    keyMatch m w k ↔ data_key m (slotOff w) = k := by
  unfold keyMatch data_key
  constructor
  · rintro ⟨_, h2⟩
    exact h2
  · intro h
    have hl := congrArg List.length h
    rw [readBytes_length] at hl
    exact ⟨hl, h⟩

/-! ### Probe-loop lemmas -/

theorem probeAux_some (s : Shard) (ph : Nat) (k : List Nat) (start : Nat) :
    ∀ fuel off e w, probeAux s ph k start off fuel = some (e, w) →
      w = s.hash_table e ∧ probeStops s ph k e ∧ e < HASH_TABLE_ENTRIES := by
  intro fuel
  induction fuel with
  | zero => intro off e w h; simp [probeAux] at h
  | succ f ih =>
    intro off e w h
    unfold probeAux at h
    by_cases h1 : slotHash (s.hash_table (HASH_INTO_TABLE (start + off))) = ph ∧
        keyMatch s.data (s.hash_table (HASH_INTO_TABLE (start + off))) k
    · rw [if_pos h1] at h
      injection h with h2
      injection h2 with he hw
      subst he
      subst hw
      exact ⟨rfl, Or.inl h1, Nat.mod_lt _ (by decide)⟩
    · rw [if_neg h1] at h
      by_cases h2 : slotOffRaw (s.hash_table (HASH_INTO_TABLE (start + off))) = 0
      · rw [if_pos h2] at h
        injection h with h3
        injection h3 with he hw
        subst he
        subst hw
        exact ⟨rfl, Or.inr h2, Nat.mod_lt _ (by decide)⟩
      · rw [if_neg h2] at h
        exact ih (off + 1) e w h

theorem probeAux_stop (s : Shard) (ph : Nat) (k : List Nat) (start : Nat) :
    ∀ t off fuel, t < fuel →
      probeStops s ph k (HASH_INTO_TABLE (start + off + t)) →
      (∀ d, d < t → ¬ probeStops s ph k (HASH_INTO_TABLE (start + off + d))) →
      probeAux s ph k start off fuel =
        some (HASH_INTO_TABLE (start + off + t),
              s.hash_table (HASH_INTO_TABLE (start + off + t))) := by
  intro t
  induction t with
  | zero =>
    intro off fuel hf hstop _
    match fuel, hf with
    | f + 1, _ =>
      unfold probeAux
      rcases hstop with h1 | h2
      · rw [if_pos (by simpa using h1)]
        simp
      · by_cases h1 : slotHash (s.hash_table (HASH_INTO_TABLE (start + off))) = ph ∧
            keyMatch s.data (s.hash_table (HASH_INTO_TABLE (start + off))) k
        · rw [if_pos h1]; simp
        · rw [if_neg h1, if_pos (by simpa using h2)]
          simp
  | succ t ih =>
    intro off fuel hf hstop hmin
    match fuel, hf with
    | f + 1, hf =>
      unfold probeAux
      have hno := hmin 0 (by omega)
      rw [Nat.add_zero] at hno
      rw [if_neg (fun h => hno (Or.inl h)), if_neg (fun h => hno (Or.inr h))]
      have e1 : start + (off + 1) + t = start + off + (t + 1) := by omega
      have := ih (off + 1) f (by omega)
        (by rw [e1]; exact hstop)
        (by intro d hd
            have e2 : start + (off + 1) + d = start + off + (d + 1) := by omega
            rw [e2]
            exact hmin (d + 1) (by omega))
      rw [this, e1]

theorem probeAux_none (s : Shard) (ph : Nat) (k : List Nat) (start : Nat) :
    ∀ fuel off, (∀ d, d < fuel → ¬ probeStops s ph k (HASH_INTO_TABLE (start + off + d))) →
      probeAux s ph k start off fuel = none := by
  intro fuel
  induction fuel with
  | zero => intro off _; rfl
  | succ f ih =>
    intro off h
    unfold probeAux
    have hno := h 0 (by omega)
    rw [Nat.add_zero] at hno
    rw [if_neg (fun hc => hno (Or.inl hc)), if_neg (fun hc => hno (Or.inr hc))]
    apply ih
    intro d hd
    have e2 : start + (off + 1) + d = start + off + (d + 1) := by omega
    rw [e2]
    exact h (d + 1) (by omega)

/-! ### `hash_lookup` under the invariant -/

theorem HIT_def (x : Nat) : HASH_INTO_TABLE x = x % 65536 := rfl

/-- In a reachable state a nonzero slot never looks empty to the probe. -/
theorem Inv_offRaw_ne {s : Shard} (hInv : Inv s) (b : Nat)
    (hb : b < HASH_TABLE_ENTRIES) (hnz : s.hash_table b ≠ 0) :
    slotOffRaw (s.hash_table b) ≠ 0 := by
  have hg := hInv.good b hb hnz
  have h1 : INDEX_SEGMENT_SIZE ≤ slotOff (s.hash_table b) := hg.1
  have h2 : slotOff (s.hash_table b) ≤ slotOffRaw (s.hash_table b) := Nat.mod_le _ _
  have h3 : (0 : Nat) < INDEX_SEGMENT_SIZE := by decide
  omega

/-- If slot `b` is assigned to `(ph, k)`, the probe for `(ph, k)` terminates
exactly at `b` and returns its word. -/
theorem lookup_assigned {s : Shard} (hInv : Inv s) (ph : Nat) (k : List Nat)
    (b : Nat) (hb : b < HASH_TABLE_ENTRIES) (ha : slotAssigned s b ph k) :
    hash_lookup s ph k = some (b, s.hash_table b) := by
  obtain ⟨hnz, hhash, hkey⟩ := ha
  have hb' : b < 65536 := hb
  have hstart : HASH_INTO_TABLE ph < 65536 := Nat.mod_lt _ (by decide)
  have ht65 : (b + 65536 - HASH_INTO_TABLE ph) % 65536 < 65536 := by omega
  have hbt : HASH_INTO_TABLE (HASH_INTO_TABLE ph + 0 +
      (b + 65536 - HASH_INTO_TABLE ph) % 65536) = b := by
    rw [HIT_def]
    omega
  have hstop : probeStops s ph k (HASH_INTO_TABLE (HASH_INTO_TABLE ph + 0 +
      (b + 65536 - HASH_INTO_TABLE ph) % 65536)) := by
    rw [hbt]
    exact Or.inl ⟨hhash, (keyMatch_iff _ _ _).mpr hkey⟩
  have hmin : ∀ d, d < (b + 65536 - HASH_INTO_TABLE ph) % 65536 →
      ¬ probeStops s ph k (HASH_INTO_TABLE (HASH_INTO_TABLE ph + 0 + d)) := by
    intro d hd
    have hbd : HASH_INTO_TABLE (HASH_INTO_TABLE ph + 0 + d) < 65536 :=
      Nat.mod_lt _ (by decide)
    have hbdnz : s.hash_table (HASH_INTO_TABLE (HASH_INTO_TABLE ph + 0 + d)) ≠ 0 := by
      have hc := hInv.chain b hb hnz d (by rw [hhash]; exact hd)
      have e1 : (slotHash (s.hash_table b) % HASH_TABLE_ENTRIES + d) % HASH_TABLE_ENTRIES =
          HASH_INTO_TABLE (HASH_INTO_TABLE ph + 0 + d) := by
        rw [hhash, HIT_def, HIT_def]
        show (ph % 65536 + d) % 65536 = (ph % 65536 + 0 + d) % 65536
        omega
      rw [e1] at hc
      exact hc
    intro hstops
    rcases hstops with ⟨hh2, hkm2⟩ | hempty
    · have hkey2 := (keyMatch_iff _ _ _).mp hkm2
      have heq := hInv.uniq _ b hbd hb hbdnz hnz (by rw [hh2, hhash])
        (by rw [hkey2, hkey])
      rw [HIT_def] at heq
      omega
    · exact Inv_offRaw_ne hInv _ hbd hbdnz hempty
  have hrun := probeAux_stop s ph k (HASH_INTO_TABLE ph)
    ((b + 65536 - HASH_INTO_TABLE ph) % 65536) 0 HASH_TABLE_ENTRIES ht65 hstop hmin
  unfold hash_lookup
  rw [hrun, hbt]

/-- If no slot is assigned to `(ph, k)`, the probe either exhausts the table
or terminates at the first empty slot of the chain. -/
theorem lookup_unassigned {s : Shard} (hInv : Inv s) (ph : Nat) (k : List Nat)
    (hno : ∀ b, b < HASH_TABLE_ENTRIES → ¬ slotAssigned s b ph k) :
    hash_lookup s ph k = none ∨
    ∃ t, t < 65536 ∧
      s.hash_table (HASH_INTO_TABLE (HASH_INTO_TABLE ph + t)) = 0 ∧
      hash_lookup s ph k = some (HASH_INTO_TABLE (HASH_INTO_TABLE ph + t), 0) ∧
      ∀ d, d < t → s.hash_table (HASH_INTO_TABLE (HASH_INTO_TABLE ph + d)) ≠ 0 := by
  have hnostop : ∀ d, s.hash_table (HASH_INTO_TABLE (HASH_INTO_TABLE ph + d)) ≠ 0 →
      ¬ probeStops s ph k (HASH_INTO_TABLE (HASH_INTO_TABLE ph + d)) := by
    intro d hnz hstops
    have hbd : HASH_INTO_TABLE (HASH_INTO_TABLE ph + d) < HASH_TABLE_ENTRIES :=
      Nat.mod_lt _ (by decide)
    rcases hstops with ⟨hh2, hkm2⟩ | hempty
    · exact hno _ hbd ⟨hnz, hh2, (keyMatch_iff _ _ _).mp hkm2⟩
    · exact Inv_offRaw_ne hInv _ hbd hnz hempty
  by_cases hex : ∃ d, s.hash_table (HASH_INTO_TABLE (HASH_INTO_TABLE ph + d)) = 0
  · right
    have hwit : ∃ d, d < 65536 ∧
        s.hash_table (HASH_INTO_TABLE (HASH_INTO_TABLE ph + d)) = 0 := by
      obtain ⟨d, hd⟩ := hex
      refine ⟨d % 65536, Nat.mod_lt _ (by decide), ?_⟩
      have e1 : HASH_INTO_TABLE (HASH_INTO_TABLE ph + d % 65536) =
          HASH_INTO_TABLE (HASH_INTO_TABLE ph + d) := by
        simp only [HIT_def]
        omega
      rw [e1]
      exact hd
    obtain ⟨d0, hd065, hd0z⟩ := hwit
    have ht65 : Nat.find hex < 65536 := lt_of_le_of_lt (Nat.find_min' hex hd0z) hd065
    refine ⟨Nat.find hex, ht65, Nat.find_spec hex, ?_, ?_⟩
    · have hstop : probeStops s ph k
          (HASH_INTO_TABLE (HASH_INTO_TABLE ph + 0 + Nat.find hex)) := by
        have e0 : HASH_INTO_TABLE ph + 0 + Nat.find hex =
            HASH_INTO_TABLE ph + Nat.find hex := by omega
        rw [e0]
        right
        rw [Nat.find_spec hex]
        decide
      have hminp : ∀ dd, dd < Nat.find hex →
          ¬ probeStops s ph k (HASH_INTO_TABLE (HASH_INTO_TABLE ph + 0 + dd)) := by
        intro dd hdd
        have e0 : HASH_INTO_TABLE ph + 0 + dd = HASH_INTO_TABLE ph + dd := by omega
        rw [e0]
        exact hnostop dd (Nat.find_min hex hdd)
      have hrun := probeAux_stop s ph k (HASH_INTO_TABLE ph) (Nat.find hex) 0
        HASH_TABLE_ENTRIES (show Nat.find hex < HASH_TABLE_ENTRIES from ht65)
        hstop hminp
      unfold hash_lookup
      rw [hrun]
      have e0 : HASH_INTO_TABLE ph + 0 + Nat.find hex =
          HASH_INTO_TABLE ph + Nat.find hex := by omega
      rw [e0, Nat.find_spec hex]
    · intro dd hdd
      exact Nat.find_min hex hdd
  · left
    apply probeAux_none
    intro d _
    rw [Nat.add_zero]
    exact hnostop d (fun h0 => hex ⟨d, h0⟩)

/-! ### Step characterization of `put` and `del` -/

theorem put_components (s : Shard) (ph sh : Nat) (k : List Nat)
    (v : List (List Nat)) (ver : Nat)
    (hnf1 : ¬ FILE_SIZE < data_size k v + s.data_offset)
    (hnf2 : s.search_offset ≠ SEARCH_INDEX_ENTRIES)
    (entry w : Nat) (hlu : hash_lookup s ph k = some (entry, w)) :
    (Shard.put s ph sh k v ver).1 = some .SUCCESS ∧
    (Shard.put s ph sh k v ver).2.1.hash_table =
      upd s.hash_table entry ((s.data_offset <<< 32) ||| ph) ∧
    (Shard.put s ph sh k v ver).2.1.data =
      (writeVals (writeBytes (writeBytes (writeBytes (writeBytes s.data s.data_offset
        (u64le ver)) (s.data_offset + 8) (u32le k.length)) (s.data_offset + 12) k)
        (s.data_offset + 12 + k.length) (u16le v.length))
        (s.data_offset + 14 + k.length) v).1 ∧
    (Shard.put s ph sh k v ver).2.1.data_offset = align8 (s.data_offset + data_size k v) ∧
    (Shard.put s ph sh k v ver).2.1.search_offset = s.search_offset + 1 := by
  unfold Shard.put
  rw [if_neg hnf1, if_neg hnf2, hlu]
  refine ⟨rfl, rfl, rfl, ?_, rfl⟩
  show align8 (writeVals _ _ v).2 = _
  rw [(put_record_reads s.data s.data_offset k v ver).2.2.2]

/-- Reads of a record wholly below the frontier are unaffected by writes at
or above it. -/
theorem data_key_frame (sdata data' : Nat → Nat) (off D : Nat)
    (hfr : ∀ a, a < D → data' a = sdata a)
    (hext : off + 12 + data_key_size sdata off ≤ D) :
    data_key_size data' off = data_key_size sdata off ∧
    data_key data' off = data_key sdata off := by
  have hsize : data_key_size data' off = data_key_size sdata off := by
    unfold data_key_size
    exact readU32_congr _ _ _ (fun a h1 h2 => hfr a (by omega))
  refine ⟨hsize, ?_⟩
  unfold data_key
  rw [hsize]
  exact readBytes_congr _ _ _ _ (fun a h1 h2 => hfr a (by omega))

theorem del_components (s : Shard) (ph : Nat) (k : List Nat)
    (entry w : Nat) (hlu : hash_lookup s ph k = some (entry, w))
    (hne : ¬ (slotOffRaw w = 0 ∨ HASH_OFFSET_INVALID ≤ slotOffRaw w))
    (hnf : ¬ FILE_SIZE < s.data_offset + 8) :
    (Shard.del s ph k).1 = some .SUCCESS ∧
    (Shard.del s ph k).2.hash_table =
      upd s.hash_table entry
        ((slotOffRaw w <<< 32) ||| (HASH_OFFSET_INVALID <<< 32) ||| ph) ∧
    (Shard.del s ph k).2.data = s.data ∧
    (Shard.del s ph k).2.data_offset = s.data_offset + 8 ∧
    (Shard.del s ph k).2.search_offset = s.search_offset := by
  unfold Shard.del
  rw [hlu]
  simp only [if_neg hne]
  rw [if_neg hnf]
  exact ⟨rfl, rfl, rfl, rfl, rfl⟩

/-- `shard::put` preserves the reachable-state invariant and never reassigns
an occupied slot to a different `(hash, key)` pair. -/
theorem put_preserves (s : Shard) (ph sh : Nat) (k : List Nat) (v : List (List Nat))
    (ver : Nat) (hInv : Inv s) (hph : ph < 4294967296) (hk : k.length < 4294967296) :
    Inv (Shard.put s ph sh k v ver).2.1 ∧
      slotsPreserved s (Shard.put s ph sh k v ver).2.1 := by
  by_cases hf1 : FILE_SIZE < data_size k v + s.data_offset
  · have hss : (Shard.put s ph sh k v ver).2.1 = s := by
      unfold Shard.put
      rw [if_pos hf1]
    rw [hss]
    exact ⟨hInv, fun b hb hnz => ⟨hnz, rfl, rfl⟩⟩
  by_cases hf2 : s.search_offset = SEARCH_INDEX_ENTRIES
  · have hss : (Shard.put s ph sh k v ver).2.1 = s := by
      unfold Shard.put
      rw [if_neg hf1, if_pos hf2]
    rw [hss]
    exact ⟨hInv, fun b hb hnz => ⟨hnz, rfl, rfl⟩⟩
  rcases hlu : hash_lookup s ph k with _ | ⟨entry, w⟩
  · have hss : (Shard.put s ph sh k v ver).2.1 = s := by
      unfold Shard.put
      rw [if_neg hf1, if_neg hf2, hlu]
    rw [hss]
    exact ⟨hInv, fun b hb hnz => ⟨hnz, rfl, rfl⟩⟩
  obtain ⟨hw, hstops, hentry⟩ :=
    probeAux_some s ph k (HASH_INTO_TABLE ph) HASH_TABLE_ENTRIES 0 entry w hlu
  obtain ⟨-, hht, hdata, hoff, -⟩ := put_components s ph sh k v ver hf1 hf2 entry w hlu
  obtain ⟨hfr, hks, hkb, -⟩ := put_record_reads s.data s.data_offset k v ver
  rw [← hdata] at hfr hks hkb
  set s' := (Shard.put s ph sh k v ver).2.1 with hs'
  have hFS : (FILE_SIZE : Nat) = 268435456 := rfl
  have hISSn : (INDEX_SEGMENT_SIZE : Nat) = 1572864 := rfl
  have hds : 14 + k.length ≤ data_size k v := by
    unfold data_size
    omega
  have hD1 := hInv.lo
  have hD2 : s.data_offset + data_size k v ≤ 268435456 := by
    rw [hFS] at hf1
    omega
  have hD0 : 0 < s.data_offset := by omega
  have hDlt : s.data_offset < 2147483648 := by omega
  obtain ⟨hw'hash, hw'raw, hw'off, hw'nz⟩ := slot_word_put s.data_offset ph hD0 hDlt hph
  have hA1 : s.data_offset + data_size k v ≤ align8 (s.data_offset + data_size k v) :=
    align8_ge _ hD2
  have hA2 : align8 (s.data_offset + data_size k v) ≤ 268435456 := align8_le _ hD2
  have hhtE : s'.hash_table entry = (s.data_offset <<< 32) ||| ph := by
    rw [hht]
    unfold upd
    rw [if_pos rfl]
  have hht' : ∀ b, b ≠ entry → s'.hash_table b = s.hash_table b := by
    intro b hb
    rw [hht]
    unfold upd
    rw [if_neg hb]
  have hpres : ∀ b, b < HASH_TABLE_ENTRIES → s.hash_table b ≠ 0 →
      data_key_size s'.data (slotOff (s.hash_table b)) =
        data_key_size s.data (slotOff (s.hash_table b)) ∧
      data_key s'.data (slotOff (s.hash_table b)) =
        data_key s.data (slotOff (s.hash_table b)) := by
    intro b hb hnz
    exact data_key_frame s.data _ _ s.data_offset hfr (hInv.good b hb hnz).2
  have hsizeE : data_key_size s'.data s.data_offset = k.length := by
    unfold data_key_size
    rw [hks]
    exact Nat.mod_eq_of_lt hk
  have hdkE : data_key s'.data s.data_offset = k := by
    unfold data_key
    rw [hsizeE]
    exact hkb
  have hmono : ∀ x, s.hash_table x ≠ 0 → s'.hash_table x ≠ 0 := by
    intro x hx
    by_cases hxe : x = entry
    · subst hxe
      rw [hhtE]
      exact hw'nz
    · rw [hht' x hxe]
      exact hx
  have hlo' : INDEX_SEGMENT_SIZE ≤ s'.data_offset := by
    rw [hoff]
    omega
  have hhi' : s'.data_offset ≤ FILE_SIZE := by
    rw [hoff, hFS]
    exact hA2
  have hlow0' : ∀ a, a < INDEX_SEGMENT_SIZE → s'.data a = 0 := by
    intro a ha
    rw [hfr a (by omega)]
    exact hInv.low0 a ha
  have hGoodE : GoodSlot s' entry := by
    refine ⟨?_, ?_⟩
    · rw [hhtE, hw'off]
      exact hInv.lo
    · rw [hhtE, hw'off, hsizeE, hoff]
      omega
  have hGoodOld : ∀ b, b < HASH_TABLE_ENTRIES → b ≠ entry → s.hash_table b ≠ 0 →
      GoodSlot s' b := by
    intro b hb hbe hnz
    have hg := hInv.good b hb hnz
    refine ⟨?_, ?_⟩
    · rw [hht' b hbe]
      exact hg.1
    · rw [hht' b hbe, (hpres b hb hnz).1, hoff]
      have := hg.2
      omega
  by_cases hwz : w = 0
  · -- the probe stopped on an empty slot: a fresh insertion
    subst hwz
    have hentz : s.hash_table entry = 0 := hw.symm
    have hno : ∀ b, b < HASH_TABLE_ENTRIES → ¬ slotAssigned s b ph k := by
      intro b hb hass
      have hlb := lookup_assigned hInv ph k b hb hass
      rw [hlu] at hlb
      injection hlb with hp
      injection hp with he hwe
      exact hass.1 hwe.symm
    rcases lookup_unassigned hInv ph k hno with hnone | ⟨t, ht65, htz, hlook2, hchain0⟩
    · rw [hlu] at hnone
      simp at hnone
    rw [hlu] at hlook2
    have hent : entry = HASH_INTO_TABLE (HASH_INTO_TABLE ph + t) :=
      congrArg Prod.fst (Option.some.inj hlook2)
    have hstart : HASH_INTO_TABLE ph < 65536 := Nat.mod_lt _ (by decide)
    constructor
    · refine ⟨hlo', hhi', hlow0', ?_, ?_, ?_⟩
      · intro b hb hnz'
        by_cases hbe : b = entry
        · subst hbe
          exact hGoodE
        · apply hGoodOld b hb hbe
          rw [hht' b hbe] at hnz'
          exact hnz'
      · intro b b' hb hb' hnz hnz' hhash hkeys
        by_cases hbe : b = entry <;> by_cases hbe' : b' = entry
        · rw [hbe, hbe']
        · exfalso
          have hnzold : s.hash_table b' ≠ 0 := by
            rw [← hht' b' hbe']
            exact hnz'
          apply hno b' hb'
          refine ⟨hnzold, ?_, ?_⟩
          · calc slotHash (s.hash_table b') = slotHash (s'.hash_table b') := by
                  rw [hht' b' hbe']
              _ = slotHash (s'.hash_table b) := hhash.symm
              _ = ph := by rw [hbe, hhtE, hw'hash]
          · calc data_key s.data (slotOff (s.hash_table b'))
                = data_key s'.data (slotOff (s'.hash_table b')) := by
                  rw [hht' b' hbe']
                  exact (hpres b' hb' hnzold).2.symm
              _ = data_key s'.data (slotOff (s'.hash_table b)) := hkeys.symm
              _ = k := by rw [hbe, hhtE, hw'off, hdkE]
        · exfalso
          have hnzold : s.hash_table b ≠ 0 := by
            rw [← hht' b hbe]
            exact hnz
          apply hno b hb
          refine ⟨hnzold, ?_, ?_⟩
          · calc slotHash (s.hash_table b) = slotHash (s'.hash_table b) := by
                  rw [hht' b hbe]
              _ = slotHash (s'.hash_table b') := hhash
              _ = ph := by rw [hbe', hhtE, hw'hash]
          · calc data_key s.data (slotOff (s.hash_table b))
                = data_key s'.data (slotOff (s'.hash_table b)) := by
                  rw [hht' b hbe]
                  exact (hpres b hb hnzold).2.symm
              _ = data_key s'.data (slotOff (s'.hash_table b')) := hkeys
              _ = k := by rw [hbe', hhtE, hw'off, hdkE]
        · have hnzb : s.hash_table b ≠ 0 := by
            rw [← hht' b hbe]
            exact hnz
          have hnzb' : s.hash_table b' ≠ 0 := by
            rw [← hht' b' hbe']
            exact hnz'
          apply hInv.uniq b b' hb hb' hnzb hnzb'
          · rw [← hht' b hbe, ← hht' b' hbe']
            exact hhash
          · have e1 := (hpres b hb hnzb).2
            have e2 := (hpres b' hb' hnzb').2
            rw [hht' b hbe, hht' b' hbe'] at hkeys
            rw [e1, e2] at hkeys
            exact hkeys
      · intro b hb hnz'
        by_cases hbe : b = entry
        · subst hbe
          intro d hd
          rw [hhtE, hw'hash] at hd ⊢
          have hdt : d < t := by
            rw [hent] at hd
            simp only [HIT_def] at hd
            have hHe : (HASH_TABLE_ENTRIES : Nat) = 65536 := rfl
            rw [hHe] at hd
            omega
          apply hmono
          exact hchain0 d hdt
        · intro d hd
          rw [hht' b hbe] at hnz' hd ⊢
          apply hmono
          exact hInv.chain b hb hnz' d hd
    · intro b hb hnz
      have hbe : b ≠ entry := fun he => hnz (by rw [he]; exact hentz)
      refine ⟨?_, ?_, ?_⟩
      · rw [hht' b hbe]
        exact hnz
      · rw [hht' b hbe]
      · rw [hht' b hbe]
        exact (hpres b hb hnz).2
  · -- the probe stopped on the slot already assigned to `(ph, k)`
    have hwnz : s.hash_table entry ≠ 0 := by
      rw [← hw]
      exact hwz
    have hmatch : slotHash (s.hash_table entry) = ph ∧
        keyMatch s.data (s.hash_table entry) k := by
      rcases hstops with hm | he
      · exact hm
      · exact absurd he (Inv_offRaw_ne hInv entry hentry hwnz)
    have hdkOld : data_key s.data (slotOff (s.hash_table entry)) = k :=
      (keyMatch_iff _ _ _).mp hmatch.2
    have huni : ∀ x, x < HASH_TABLE_ENTRIES →
        (s'.hash_table x ≠ 0 ↔ s.hash_table x ≠ 0) ∧
        (s.hash_table x ≠ 0 →
          slotHash (s'.hash_table x) = slotHash (s.hash_table x) ∧
          data_key s'.data (slotOff (s'.hash_table x)) =
            data_key s.data (slotOff (s.hash_table x))) := by
      intro x hx
      by_cases hxe : x = entry
      · subst hxe
        refine ⟨⟨fun _ => hwnz, fun _ => by rw [hhtE]; exact hw'nz⟩, fun _ => ?_⟩
        rw [hhtE]
        refine ⟨by rw [hw'hash, hmatch.1], ?_⟩
        rw [hw'off, hdkE, hdkOld]
      · refine ⟨by rw [hht' x hxe], fun hnz => ?_⟩
        rw [hht' x hxe]
        exact ⟨rfl, (hpres x hx hnz).2⟩
    constructor
    · refine ⟨hlo', hhi', hlow0', ?_, ?_, ?_⟩
      · intro b hb hnz'
        by_cases hbe : b = entry
        · subst hbe
          exact hGoodE
        · apply hGoodOld b hb hbe
          rw [hht' b hbe] at hnz'
          exact hnz'
      · intro b b' hb hb' hnz hnz' hhash hkeys
        have hb0 := ((huni b hb).1).mp hnz
        have hb'0 := ((huni b' hb').1).mp hnz'
        obtain ⟨hh1, hk1⟩ := (huni b hb).2 hb0
        obtain ⟨hh2, hk2⟩ := (huni b' hb').2 hb'0
        exact hInv.uniq b b' hb hb' hb0 hb'0
          (by rw [← hh1, ← hh2]; exact hhash)
          (by rw [← hk1, ← hk2]; exact hkeys)
      · intro b hb hnz'
        have hb0 := ((huni b hb).1).mp hnz'
        obtain ⟨hh1, -⟩ := (huni b hb).2 hb0
        intro d hd
        rw [hh1] at hd ⊢
        apply hmono
        exact hInv.chain b hb hb0 d hd
    · intro b hb hnz
      have hnz' := ((huni b hb).1).mpr hnz
      obtain ⟨hh1, hk1⟩ := (huni b hb).2 hnz
      exact ⟨hnz', hh1, hk1⟩

/-- `shard::del` preserves the reachable-state invariant and never reassigns
an occupied slot to a different `(hash, key)` pair. -/
theorem del_preserves (s : Shard) (ph : Nat) (k : List Nat) (hInv : Inv s)
    (hph : ph < 4294967296) :
    Inv (Shard.del s ph k).2 ∧ slotsPreserved s (Shard.del s ph k).2 := by
  rcases hlu : hash_lookup s ph k with _ | ⟨entry, w⟩
  · have hss : (Shard.del s ph k).2 = s := by
      unfold Shard.del
      rw [hlu]
    rw [hss]
    exact ⟨hInv, fun b hb hnz => ⟨hnz, rfl, rfl⟩⟩
  obtain ⟨hw, hstops, hentry⟩ :=
    probeAux_some s ph k (HASH_INTO_TABLE ph) HASH_TABLE_ENTRIES 0 entry w hlu
  by_cases hne : slotOffRaw w = 0 ∨ HASH_OFFSET_INVALID ≤ slotOffRaw w
  · have hss : (Shard.del s ph k).2 = s := by
      unfold Shard.del
      rw [hlu]
      simp only [if_pos hne]
    rw [hss]
    exact ⟨hInv, fun b hb hnz => ⟨hnz, rfl, rfl⟩⟩
  by_cases hnf : FILE_SIZE < s.data_offset + 8
  · have hss : (Shard.del s ph k).2 = s := by
      unfold Shard.del
      rw [hlu]
      simp only [if_neg hne]
      rw [if_pos hnf]
    rw [hss]
    exact ⟨hInv, fun b hb hnz => ⟨hnz, rfl, rfl⟩⟩
  obtain ⟨-, hht, hdata, hoff, -⟩ := del_components s ph k entry w hlu hne hnf
  set s' := (Shard.del s ph k).2 with hs'
  push_neg at hne
  have hHOI : (HASH_OFFSET_INVALID : Nat) = 2147483648 := rfl
  have hFS : (FILE_SIZE : Nat) = 268435456 := rfl
  have hwne : w ≠ 0 := by
    intro h0
    apply hne.1
    rw [h0]
    decide
  have hwnz : s.hash_table entry ≠ 0 := hw ▸ hwne
  have hmatch : slotHash (s.hash_table entry) = ph ∧
      keyMatch s.data (s.hash_table entry) k := by
    rcases hstops with hm | he
    · exact hm
    · exact absurd (hw ▸ he) (fun h => hne.1 (hw ▸ h))
  have htoff : slotOffRaw w < 2147483648 := by
    have := hne.2
    omega
  obtain ⟨hw2hash, hw2raw, hw2off, hw2nz⟩ := slot_word_del (slotOffRaw w) ph htoff hph
  have hoffeq : slotOff w = slotOffRaw w := by
    show slotOffRaw w % 2147483648 = slotOffRaw w
    exact Nat.mod_eq_of_lt htoff
  have hhtE : s'.hash_table entry =
      ((slotOffRaw w) <<< 32) ||| (HASH_OFFSET_INVALID <<< 32) ||| ph := by
    rw [hht]
    unfold upd
    rw [if_pos rfl]
  have hht' : ∀ b, b ≠ entry → s'.hash_table b = s.hash_table b := by
    intro b hb
    rw [hht]
    unfold upd
    rw [if_neg hb]
  have hgE := hInv.good entry hentry hwnz
  have huni : ∀ x, x < HASH_TABLE_ENTRIES →
      (s'.hash_table x ≠ 0 ↔ s.hash_table x ≠ 0) ∧
      (s.hash_table x ≠ 0 →
        slotHash (s'.hash_table x) = slotHash (s.hash_table x) ∧
        slotOff (s'.hash_table x) = slotOff (s.hash_table x)) := by
    intro x hx
    by_cases hxe : x = entry
    · subst hxe
      refine ⟨⟨fun _ => hwnz, fun _ => by rw [hhtE]; exact hw2nz⟩, fun _ => ?_⟩
      rw [hhtE]
      constructor
      · rw [hw2hash, hmatch.1]
      · rw [hw2off, ← hoffeq, hw]
    · refine ⟨by rw [hht' x hxe], fun _ => ?_⟩
      rw [hht' x hxe]
      exact ⟨rfl, rfl⟩
  constructor
  · refine ⟨?_, ?_, ?_, ?_, ?_, ?_⟩
    · rw [hoff]
      have := hInv.lo
      omega
    · rw [hoff, hFS]
      rw [hFS] at hnf
      omega
    · intro a ha
      rw [hdata]
      exact hInv.low0 a ha
    · intro b hb hnz'
      have hb0 := ((huni b hb).1).mp hnz'
      obtain ⟨-, ho1⟩ := (huni b hb).2 hb0
      have hg := hInv.good b hb hb0
      refine ⟨?_, ?_⟩
      · rw [ho1]
        exact hg.1
      · rw [ho1, hdata, hoff]
        have := hg.2
        omega
    · intro b b' hb hb' hnz hnz' hhash hkeys
      have hb0 := ((huni b hb).1).mp hnz
      have hb'0 := ((huni b' hb').1).mp hnz'
      obtain ⟨hh1, ho1⟩ := (huni b hb).2 hb0
      obtain ⟨hh2, ho2⟩ := (huni b' hb').2 hb'0
      apply hInv.uniq b b' hb hb' hb0 hb'0
      · rw [← hh1, ← hh2]
        exact hhash
      · rw [hdata, ho1, ho2] at hkeys
        exact hkeys
    · intro b hb hnz'
      have hb0 := ((huni b hb).1).mp hnz'
      obtain ⟨hh1, -⟩ := (huni b hb).2 hb0
      intro d hd
      rw [hh1] at hd ⊢
      have hc := hInv.chain b hb hb0 d hd
      by_cases hce : (slotHash (s.hash_table b) % HASH_TABLE_ENTRIES + d)
          % HASH_TABLE_ENTRIES = entry
      · rw [hce, hhtE]
        exact hw2nz
      · rw [hht' _ hce]
        exact hc
  · intro b hb hnz
    have hnz' := ((huni b hb).1).mpr hnz
    obtain ⟨hh1, ho1⟩ := (huni b hb).2 hnz
    refine ⟨hnz', hh1, ?_⟩
    rw [hdata, ho1]

theorem Inv_fresh : Inv freshShard := by
  refine ⟨?_, ?_, ?_, ?_, ?_, ?_⟩
  · exact le_refl _
  · decide
  · intro a _
    rfl
  · intro b _ hnz
    exact absurd rfl hnz
  · intro b b' _ _ hnz _ _ _
    exact absurd rfl hnz
  · intro b _ hnz
    exact absurd rfl hnz

theorem applyOp_preserves (s : Shard) (op : shard_op) (hInv : Inv s)
    (hop : ValidOp op) : Inv (applyOp s op) ∧ slotsPreserved s (applyOp s op) := by
  cases op with
  | put ph sh k v ver =>
    obtain ⟨h1, h2, h3⟩ := hop
    simp only [applyOp]
    exact put_preserves s ph sh k v ver hInv h1 h3
  | del ph k =>
    obtain ⟨h1, h2⟩ := hop
    simp only [applyOp]
    exact del_preserves s ph k hInv h1

theorem slotsPreserved_trans {s1 s2 s3 : Shard} (h12 : slotsPreserved s1 s2)
    (h23 : slotsPreserved s2 s3) : slotsPreserved s1 s3 := by
  intro b hb hnz
  obtain ⟨hnz2, hh2, hk2⟩ := h12 b hb hnz
  obtain ⟨hnz3, hh3, hk3⟩ := h23 b hb hnz2
  exact ⟨hnz3, hh3.trans hh2, hk3.trans hk2⟩

theorem foldl_preserves (ops : List shard_op) :
    ∀ s, Inv s → ValidOps ops →
      Inv (ops.foldl applyOp s) ∧ slotsPreserved s (ops.foldl applyOp s) := by
  induction ops with
  | nil =>
    intro s hInv _
    exact ⟨hInv, fun b hb hnz => ⟨hnz, rfl, rfl⟩⟩
  | cons op rest ih =>
    intro s hInv hv
    have hop : ValidOp op := hv op (List.mem_cons_self _ _)
    have hrest : ValidOps rest := fun o ho => hv o (List.mem_cons_of_mem _ ho)
    obtain ⟨hInv1, hp1⟩ := applyOp_preserves s op hInv hop
    obtain ⟨hInv2, hp2⟩ := ih (applyOp s op) hInv1 hrest
    rw [List.foldl_cons]
    exact ⟨hInv2, slotsPreserved_trans hp1 hp2⟩

end Lemmas

/-! # Claim theorems -/

/-- C4: for every sequence of shard `put` and `del` operations starting from a
freshly created shard, once a hash-table slot `b` has been assigned to a
`(primary_hash, key)` pair it still holds exactly that pair after any further
operations, no other slot ever holds that pair, and the probe chain for that
key's hash terminates at `b` — even across deletes and reinserts. -/
theorem hash_slot_stability (ops more : List shard_op)
    (hops : ValidOps ops) (hmore : ValidOps more)
    (b ph : Nat) (k : List Nat) (hb : b < HASH_TABLE_ENTRIES)
    (ha : slotAssigned (runOps ops) b ph k) :
    slotAssigned (runOps (ops ++ more)) b ph k ∧
    (∀ b', b' < HASH_TABLE_ENTRIES → slotAssigned (runOps (ops ++ more)) b' ph k →
      b' = b) ∧
    hash_lookup (runOps (ops ++ more)) ph k =
      some (b, (runOps (ops ++ more)).hash_table b) := by
  have hInv1 : Inv (runOps ops) := (foldl_preserves ops freshShard Inv_fresh hops).1
  have hsplit : runOps (ops ++ more) = more.foldl applyOp (runOps ops) := by
    unfold runOps
    rw [List.foldl_append]
  obtain ⟨hInv2, hp⟩ := foldl_preserves more (runOps ops) hInv1 hmore
  rw [hsplit]
  obtain ⟨hnz, hhash, hkey⟩ := ha
  obtain ⟨hnz', hh', hk'⟩ := hp b hb hnz
  have ha' : slotAssigned (more.foldl applyOp (runOps ops)) b ph k :=
    ⟨hnz', hh'.trans hhash, hk'.trans hkey⟩
  refine ⟨ha', ?_, lookup_assigned hInv2 ph k b hb ha'⟩
  intro b' hb' ha''
  exact hInv2.uniq b' b hb' hb ha''.1 ha'.1 (ha''.2.1.trans ha'.2.1.symm)
    (ha''.2.2.trans ha'.2.2.symm)

/-- C10: a newly constructed disk contains exactly one shard, whose coordinate
is `(0, 0, 0, 0)`; that coordinate contains and primary-contains every
coordinate, so before any split every lookup and every flushed put or delete
finds at least one candidate shard. -/
theorem disk_new_initial_shard (a : Nat) (c : coordinate) :
    (disk.new a).shards.length = 1 ∧
    (∀ p ∈ (disk.new a).shards, p.1 = ⟨0, 0, 0, 0⟩) ∧
    coordinate.contains ⟨0, 0, 0, 0⟩ c ∧
    coordinate.primary_contains ⟨0, 0, 0, 0⟩ c ∧
    (∃ i, ∃ h : i < (disk.new a).shards.length,
      (((disk.new a).shards.get ⟨i, h⟩).1).primary_contains c ∧
      (((disk.new a).shards.get ⟨i, h⟩).1).contains c) := by
  refine ⟨rfl, ?_, ⟨Nat.zero_and _, Nat.zero_and _⟩, Nat.zero_and _,
    ⟨0, Nat.one_pos, Nat.zero_and _, Nat.zero_and _, Nat.zero_and _⟩⟩
  intro p hp
  simp only [disk.new, List.mem_singleton] at hp
  rw [hp]

/-- C5: `disk::put` returns `WRONGARITY` exactly when `|value| + 1` differs
from the disk's arity and otherwise returns `SUCCESS` having only appended a
put entry to the WAL; `disk::del` always returns `SUCCESS` and appends a
delete entry; neither operation modifies any shard's state or the arity. -/
theorem disk_put_del_wal_only (hf : HashFns) (d : disk) (k : List Nat)
    (v : List (List Nat)) (ver : Nat) :
    ((disk.put hf d k v ver).1 = returncode.WRONGARITY ↔ v.length + 1 ≠ d.arity) ∧
    ((disk.put hf d k v ver).1 = returncode.SUCCESS ↔ v.length + 1 = d.arity) ∧
    (disk.put hf d k v ver).2.shards = d.shards ∧
    (disk.put hf d k v ver).2.arity = d.arity ∧
    (disk.put hf d k v ver).2.log =
      (if v.length + 1 = d.arity
       then d.log ++ [⟨get_coordinate_kv hf k v, k, v, ver⟩] else d.log) ∧
    (disk.del hf d k).1 = returncode.SUCCESS ∧
    (disk.del hf d k).2.shards = d.shards ∧
    (disk.del hf d k).2.arity = d.arity ∧
    (disk.del hf d k).2.log = d.log ++ [⟨get_coordinate hf k, k, [], 0⟩] := by
  unfold disk.put disk.del
  by_cases h : v.length + 1 ≠ d.arity
  · rw [if_pos h]
    refine ⟨⟨fun _ => h, fun _ => rfl⟩,
      ⟨fun hc => by simp at hc, fun hc => absurd hc h⟩,
      rfl, rfl, by rw [if_neg h], rfl, rfl, rfl, rfl⟩
  · push_neg at h
    rw [if_neg (fun hc => hc h)]
    refine ⟨⟨fun hc => by simp at hc, fun hc => absurd h hc⟩,
      ⟨fun _ => h, fun _ => rfl⟩,
      rfl, rfl, by rw [if_pos h], rfl, rfl, rfl, rfl⟩

/-- C9 (code bug): when a spare shard is taken from the FIFO,
`create_tmp_shard` renames it to the canonical coordinate filename, not the
`-tmp` name the claim (and `clean_shard`'s later rename) require; only the
freshly-created path produces the `-tmp` name. -/
theorem create_tmp_shard_spare_name_bug :
    create_tmp_shard_name true ⟨0, 0, 0, 0⟩ = shard_filename ⟨0, 0, 0, 0⟩ ∧
    shard_tmp_filename ⟨0, 0, 0, 0⟩ = shard_filename ⟨0, 0, 0, 0⟩ ++ "-tmp" ∧
    create_tmp_shard_name true ⟨0, 0, 0, 0⟩ ≠ shard_tmp_filename ⟨0, 0, 0, 0⟩ ∧
    create_tmp_shard_name false ⟨0, 0, 0, 0⟩ = shard_tmp_filename ⟨0, 0, 0, 0⟩ :=
  ⟨rfl, by decide, by decide, rfl⟩

/-- C7 (code bug): a 16-byte put at the start of the data segment stays inside
the first 4 MiB block (both offsets divide to the same 4 MiB block), yet the
`(m_data_offset & ~(1<<22)) != (new_data_offset & ~(1<<22))` test fires and
`async()` is invoked. -/
theorem put_msync_without_boundary_cross :
    (Shard.put freshShard 0 0 [1] [[2]] 7).2.2 = true ∧
    freshShard.data_offset = 1572864 ∧
    (Shard.put freshShard 0 0 [1] [[2]] 7).2.1.data_offset = 1572888 ∧
    freshShard.data_offset / 4194304 =
      (Shard.put freshShard 0 0 [1] [[2]] 7).2.1.data_offset / 4194304 :=
  ⟨by decide, rfl, by decide, by decide⟩

/-- C3 counterexample: on a shard with no stale space and coordinate
`(UINT32_MAX, 0, 0, 0)` — primary mask fully widened, secondary mask not —
`deal_with_full_shard` reports `SPLITFAILED`, though the claim (both masks
must be `UINT32_MAX`) says this case should split four ways. -/
theorem deal_with_full_shard_claim_cx :
    deal_with_full_shard freshShard ⟨4294967295, 0, 0, 0⟩ =
      SplitAction.split_failed ∧
    stale_space freshShard < 30 ∧
    (coordinate.mk 4294967295 0 0 0).primary_mask = UINT32_MAX ∧
    (coordinate.mk 4294967295 0 0 0).secondary_mask ≠ UINT32_MAX :=
  ⟨by decide, by decide, rfl, by decide⟩

/-- C3 amended: `deal_with_full_shard` cleans when `stale_space() ≥ 30`;
otherwise it reports `SPLITFAILED` exactly when the primary mask **or** the
secondary mask is `UINT32_MAX` (the source uses `||`, not `∧`), and splits
four ways in every remaining case. -/
theorem deal_with_full_shard_cases (s : Shard) (c : coordinate) :
    (deal_with_full_shard s c = SplitAction.clean_shard ↔ 30 ≤ stale_space s) ∧
    (deal_with_full_shard s c = SplitAction.split_failed ↔
      stale_space s < 30 ∧
        (c.primary_mask = UINT32_MAX ∨ c.secondary_mask = UINT32_MAX)) ∧
    (deal_with_full_shard s c = SplitAction.split_shard ↔
      stale_space s < 30 ∧
        c.primary_mask ≠ UINT32_MAX ∧ c.secondary_mask ≠ UINT32_MAX) := by
  unfold deal_with_full_shard
  by_cases h1 : 30 ≤ stale_space s
  · rw [if_pos h1]
    exact ⟨⟨fun _ => h1, fun _ => rfl⟩,
      ⟨fun hc => absurd hc (by decide), fun hc => absurd h1 (by omega)⟩,
      ⟨fun hc => absurd hc (by decide), fun hc => absurd h1 (by omega)⟩⟩
  · rw [if_neg h1]
    by_cases h2 : c.primary_mask = UINT32_MAX ∨ c.secondary_mask = UINT32_MAX
    · rw [if_pos h2]
      refine ⟨⟨fun hc => absurd hc (by decide), fun hc => absurd hc h1⟩,
        ⟨fun _ => ⟨by omega, h2⟩, fun _ => rfl⟩,
        ⟨fun hc => absurd hc (by decide), fun hc => ?_⟩⟩
      rcases h2 with h | h
      · exact absurd h hc.2.1
      · exact absurd h hc.2.2
    · rw [if_neg h2]
      push_neg at h2
      exact ⟨⟨fun hc => absurd hc (by decide), fun hc => absurd hc h1⟩,
        ⟨fun hc => absurd hc (by decide), fun hc => absurd hc.2 (by
          rintro (h | h)
          · exact h2.1 h
          · exact h2.2 h)⟩,
        ⟨fun _ => ⟨by omega, h2.1, h2.2⟩, fun _ => rfl⟩⟩

/-- C8 counterexample: with `mask = 0xFFFFFFFC` (only positions 0 and 1
unmasked), `zeros ≡ 0` and `ones[1] = INT32_MAX`, the unmasked position 1
exists but `which_to_split` returns 0 — the initial `diff = INT32_MAX` is
never beaten by the strict `<`, so the claim's "position 0 is never returned"
and "returns the minimising unmasked position" both fail. -/
theorem which_to_split_claim_cx :
    which_to_split 4294967292 (fun _ => 0)
      (fun b => if b = 1 then 2147483647 else 0) = 0 ∧
    4294967292 &&& (1 <<< 1) = 0 :=
  ⟨by decide, by decide⟩

/-- The WAL scan of `disk::get` as a function of the last matching entry:
the fold leaves the accumulator untouched when no entry matches, and
otherwise latches `found = true` with the result dictated by the last
matching entry. -/
theorem walFold_spec (coord : coordinate) (k : List Nat) (l : List log_entry) :
    ∀ acc, l.foldl (walStep coord k) acc =
      ((l.filter (fun e =>
          decide (e.coord.primary_contains coord ∧ e.key = k))).getLast?).elim acc
        (fun e => (true,
          if e.coord.secondary_mask = UINT32_MAX then GetRes.found e.value e.version
          else GetRes.notfound)) := by
  induction l using List.reverseRecOn with
  | nil => intro acc; rfl
  | append_singleton l e ih =>
    intro acc
    rw [List.foldl_append, List.foldl_cons, List.foldl_nil, List.filter_append]
    by_cases hp : e.coord.primary_contains coord ∧ e.key = k
    · have hfe : List.filter (fun e =>
          decide (e.coord.primary_contains coord ∧ e.key = k)) [e] = [e] := by
        simp [List.filter, hp]
      rw [hfe, List.getLast?_concat]
      show walStep coord k (l.foldl (walStep coord k) acc) e = _
      unfold walStep
      rw [if_pos hp]
      rfl
    · have hfe : List.filter (fun e =>
          decide (e.coord.primary_contains coord ∧ e.key = k)) [e] = [] := by
        simp [List.filter, hp]
      rw [hfe, List.append_nil]
      show walStep coord k (l.foldl (walStep coord k) acc) e = _
      unfold walStep
      rw [if_neg hp]
      exact ih acc

/-- `disk::get` when the shard walk completes: the WAL result overrides the
shard result whenever some WAL entry matched. -/
theorem disk_get_eq (hf : HashFns) (d : disk) (k : List Nat) (r : GetRes)
    (hwalk : shard_walk (get_coordinate hf k) ((get_coordinate hf k).primary_hash) k
      GetRes.notfound d.shards = some r) :
    disk.get hf d k =
      some (if (d.log.foldl (walStep (get_coordinate hf k) k)
                 (false, GetRes.notfound)).1
            then (d.log.foldl (walStep (get_coordinate hf k) k)
                 (false, GetRes.notfound)).2
            else r) := by
  simp only [disk.get]
  rw [hwalk]

theorem iabs_eq (t : Int) : (if t < 0 then -t else t) = |t| := by
  rcases lt_or_le t 0 with h | h
  · rw [if_pos h, abs_of_neg h]
  · rw [if_neg (not_lt.mpr h), abs_of_nonneg h]

/-- The loop invariant of `which_to_split`: carrying the least minimiser seen
so far (or the untouched initial `(INT32_MAX, 0)`), the loop ends with the
least minimiser over all unmasked positions, provided each unmasked
difference is below `INT32_MAX`. -/
theorem wtsAux_minimises (mask : Nat) (zeros ones : Nat → Int)
    (hub : ∀ b, b < 32 → 1 ≤ b → mask &&& (1 <<< b) = 0 →
      |ones b - zeros b| < 2147483647) :
    ∀ fuel i (diff : Int) (pos : Nat), i + fuel = 32 → 1 ≤ i →
    ((∀ b, 1 ≤ b → b < i → ¬ mask &&& (1 <<< b) = 0) ∧
        diff = 2147483647 ∧ pos = 0) ∨
      (1 ≤ pos ∧ pos < i ∧ mask &&& (1 <<< pos) = 0 ∧
        diff = |ones pos - zeros pos| ∧
        (∀ b, 1 ≤ b → b < i → mask &&& (1 <<< b) = 0 →
          diff ≤ |ones b - zeros b|) ∧
        (∀ b, 1 ≤ b → b < i → mask &&& (1 <<< b) = 0 →
          |ones b - zeros b| = diff → pos ≤ b)) →
    ((∀ b, 1 ≤ b → b < 32 → ¬ mask &&& (1 <<< b) = 0) ∧
        wtsAux mask zeros ones i fuel diff pos = 0) ∨
      (1 ≤ wtsAux mask zeros ones i fuel diff pos ∧
        wtsAux mask zeros ones i fuel diff pos < 32 ∧
        mask &&& (1 <<< wtsAux mask zeros ones i fuel diff pos) = 0 ∧
        (∀ b, 1 ≤ b → b < 32 → mask &&& (1 <<< b) = 0 →
          |ones (wtsAux mask zeros ones i fuel diff pos) -
            zeros (wtsAux mask zeros ones i fuel diff pos)| ≤ |ones b - zeros b|) ∧
        (∀ b, 1 ≤ b → b < 32 → mask &&& (1 <<< b) = 0 →
          |ones b - zeros b| =
            |ones (wtsAux mask zeros ones i fuel diff pos) -
              zeros (wtsAux mask zeros ones i fuel diff pos)| →
          wtsAux mask zeros ones i fuel diff pos ≤ b)) := by
  intro fuel
  induction fuel with
  | zero =>
    intro i diff pos hi h1 hinv
    have hi32 : i = 32 := by omega
    subst hi32
    simp only [wtsAux]
    rcases hinv with ⟨hnone, _, hpos⟩ | ⟨hp1, hp2, hp3, hp4, hp5, hp6⟩
    · exact Or.inl ⟨fun b hb1 hb2 => hnone b hb1 hb2, hpos⟩
    · refine Or.inr ⟨hp1, by omega, hp3, ?_, ?_⟩
      · intro b hb1 hb2 hb3
        rw [← hp4]
        exact hp5 b hb1 hb2 hb3
      · intro b hb1 hb2 hb3 hb4
        exact hp6 b hb1 hb2 hb3 (by rw [hb4, hp4])
  | succ f ih =>
    intro i diff pos hi h1 hinv
    have hi32 : i < 32 := by omega
    unfold wtsAux
    by_cases hm : mask &&& (1 <<< i) = 0
    · rw [if_pos hm]
      simp only [iabs_eq]
      by_cases hlt : |ones i - zeros i| < diff
      · rw [if_pos hlt]
        apply ih (i + 1) (|ones i - zeros i|) i (by omega) (by omega)
        right
        refine ⟨by omega, by omega, hm, rfl, ?_, ?_⟩
        · intro b hb1 hb2 hb3
          rcases Nat.lt_or_ge b i with hbi | hbi
          · rcases hinv with ⟨hnone, hdiff, _⟩ | ⟨_, _, _, _, hp5, _⟩
            · exact absurd hb3 (hnone b hb1 hbi)
            · have := hp5 b hb1 hbi hb3
              omega
          · have hbi' : b = i := by omega
            rw [hbi']
        · intro b hb1 hb2 hb3 hb4
          rcases Nat.lt_or_ge b i with hbi | hbi
          · rcases hinv with ⟨hnone, hdiff, _⟩ | ⟨_, _, _, _, hp5, _⟩
            · exact absurd hb3 (hnone b hb1 hbi)
            · have := hp5 b hb1 hbi hb3
              omega
          · omega
      · rw [if_neg hlt]
        apply ih (i + 1) diff pos (by omega) (by omega)
        rcases hinv with ⟨hnone, hdiff, hpos⟩ | ⟨hp1, hp2, hp3, hp4, hp5, hp6⟩
        · exfalso
          have := hub i hi32 h1 hm
          rw [hdiff] at hlt
          omega
        · right
          refine ⟨hp1, by omega, hp3, hp4, ?_, ?_⟩
          · intro b hb1 hb2 hb3
            rcases Nat.lt_or_ge b i with hbi | hbi
            · exact hp5 b hb1 hbi hb3
            · have hbi' : b = i := by omega
              rw [hbi']
              omega
          · intro b hb1 hb2 hb3 hb4
            rcases Nat.lt_or_ge b i with hbi | hbi
            · exact hp6 b hb1 hbi hb3 hb4
            · omega
    · rw [if_neg hm]
      apply ih (i + 1) diff pos (by omega) (by omega)
      rcases hinv with ⟨hnone, hdiff, hpos⟩ | ⟨hp1, hp2, hp3, hp4, hp5, hp6⟩
      · left
        refine ⟨?_, hdiff, hpos⟩
        intro b hb1 hb2
        rcases Nat.lt_or_ge b i with hbi | hbi
        · exact hnone b hb1 hbi
        · have hbi' : b = i := by omega
          rw [hbi']
          exact hm
      · right
        refine ⟨hp1, by omega, hp3, hp4, ?_, ?_⟩
        · intro b hb1 hb2 hb3
          rcases Nat.lt_or_ge b i with hbi | hbi
          · exact hp5 b hb1 hbi hb3
          · have hbi' : b = i := by omega
            rw [hbi'] at hb3
            exact absurd hb3 hm
        · intro b hb1 hb2 hb3 hb4
          rcases Nat.lt_or_ge b i with hbi | hbi
          · exact hp6 b hb1 hbi hb3 hb4
          · have hbi' : b = i := by omega
            rw [hbi'] at hb3
            exact absurd hb3 hm

/-- C8 amended: over the unmasked bit positions `b ∈ [1, 32)`,
`which_to_split` returns the lowest-indexed position minimising
`|ones[b] - zeros[b]|`, provided every unmasked difference is below
`INT32_MAX` (as holds at every call site, where the counts are bounded by the
number of records in a shard); position 0 is then never returned. -/
theorem which_to_split_minimises (mask : Nat) (zeros ones : Nat → Int)
    (hub : ∀ b, b < 32 → 1 ≤ b → mask &&& (1 <<< b) = 0 →
      |ones b - zeros b| < 2147483647)
    (hex : ∃ b, b < 32 ∧ 1 ≤ b ∧ mask &&& (1 <<< b) = 0) :
    1 ≤ which_to_split mask zeros ones ∧
    which_to_split mask zeros ones < 32 ∧
    mask &&& (1 <<< which_to_split mask zeros ones) = 0 ∧
    (∀ b, b < 32 → 1 ≤ b → mask &&& (1 <<< b) = 0 →
      |ones (which_to_split mask zeros ones) -
        zeros (which_to_split mask zeros ones)| ≤ |ones b - zeros b|) ∧
    (∀ b, b < 32 → 1 ≤ b → mask &&& (1 <<< b) = 0 →
      |ones b - zeros b| =
        |ones (which_to_split mask zeros ones) -
          zeros (which_to_split mask zeros ones)| →
      which_to_split mask zeros ones ≤ b) := by
  have hub' : ∀ b, b < 32 → 1 ≤ b → mask &&& (1 <<< b) = 0 →
      |ones b - zeros b| < 2147483647 := hub
  have h := wtsAux_minimises mask zeros ones hub' 31 1 2147483647 0
    (by omega) (by omega)
    (Or.inl ⟨fun b hb1 hb2 => absurd hb2 (by omega), rfl, rfl⟩)
  rcases h with ⟨hnone, _⟩ | ⟨h1, h2, h3, h4, h5⟩
  · obtain ⟨b, hb1, hb2, hb3⟩ := hex
    exact absurd hb3 (hnone b hb2 hb1)
  · exact ⟨h1, h2, h3, fun b hb1 hb2 hb3 => h4 b hb2 hb1 hb3,
      fun b hb1 hb2 hb3 hb4 => h5 b hb2 hb1 hb3 hb4⟩

/-- Witness for C8's amended claim: with `mask = 0`, `zeros ≡ 0` and
`ones[b] = b`, the minimiser over positions 1–31 is position 1. -/
theorem which_to_split_minimises_witness :
    1 ≤ which_to_split 0 (fun _ => 0) (fun b => (b : Int)) ∧
    which_to_split 0 (fun _ => 0) (fun b => (b : Int)) < 32 ∧
    (0 : Nat) &&& (1 <<< which_to_split 0 (fun _ => 0) (fun b => (b : Int))) = 0 ∧
    (∀ b, b < 32 → 1 ≤ b → (0 : Nat) &&& (1 <<< b) = 0 →
      |(which_to_split 0 (fun _ => 0) (fun b => (b : Int)) : Int) - 0| ≤ |(b : Int) - 0|) ∧
    (∀ b, b < 32 → 1 ≤ b → (0 : Nat) &&& (1 <<< b) = 0 →
      |(b : Int) - 0| = |(which_to_split 0 (fun _ => 0) (fun b => (b : Int)) : Int) - 0| →
      which_to_split 0 (fun _ => 0) (fun b => (b : Int)) ≤ b) :=
  which_to_split_minimises 0 (fun _ => 0) (fun b => (b : Int))
    (by decide) (by decide)

/-- Witness for C4: a concrete run — `put (0, key [1])`, then a delete and a
reinsert of the same key — in which slot 0 is assigned to `(0, [1])`. -/
theorem hash_slot_stability_witness :
    slotAssigned (runOps ([shard_op.put 0 0 [1] [] 5] ++
        [shard_op.del 0 [1], shard_op.put 0 0 [1] [] 6])) 0 0 [1] ∧
    (∀ b', b' < HASH_TABLE_ENTRIES →
      slotAssigned (runOps ([shard_op.put 0 0 [1] [] 5] ++
        [shard_op.del 0 [1], shard_op.put 0 0 [1] [] 6])) b' 0 [1] → b' = 0) ∧
    hash_lookup (runOps ([shard_op.put 0 0 [1] [] 5] ++
        [shard_op.del 0 [1], shard_op.put 0 0 [1] [] 6])) 0 [1] =
      some (0, (runOps ([shard_op.put 0 0 [1] [] 5] ++
        [shard_op.del 0 [1], shard_op.put 0 0 [1] [] 6])).hash_table 0) :=
  hash_slot_stability [shard_op.put 0 0 [1] [] 5]
    [shard_op.del 0 [1], shard_op.put 0 0 [1] [] 6]
    (by decide) (by decide) 0 0 [1] (by decide) (by decide)

/-- C2: among the pending WAL entries whose coordinate primary-contains the
lookup coordinate and whose key equals `k`, the last one in append order
determines the result of `disk::get` — `Found(value, version)` for a put
entry (`secondary_mask == UINT32_MAX`), `NOTFOUND` for a delete entry
(`secondary_mask == 0`); when no WAL entry matches, the shard-walk result is
returned. -/
theorem wal_last_match_decides (hf : HashFns) (d : disk) (k : List Nat)
    (r : GetRes)
    (hwalk : shard_walk (get_coordinate hf k) ((get_coordinate hf k).primary_hash) k
      GetRes.notfound d.shards = some r) :
    (walMatches hf d k = [] → disk.get hf d k = some r) ∧
    (∀ e, (walMatches hf d k).getLast? = some e →
      (e.coord.secondary_mask = UINT32_MAX →
        disk.get hf d k = some (GetRes.found e.value e.version)) ∧
      (e.coord.secondary_mask = 0 → disk.get hf d k = some GetRes.notfound)) := by
  have hget := disk_get_eq hf d k r hwalk
  have hfold := walFold_spec (get_coordinate hf k) k d.log (false, GetRes.notfound)
  constructor
  · intro hempty
    unfold walMatches at hempty
    rw [hempty] at hfold
    simp only [List.getLast?_nil, Option.elim] at hfold
    rw [hget, hfold]
    rfl
  · intro e hlast
    unfold walMatches at hlast
    rw [hlast] at hfold
    simp only [Option.elim] at hfold
    constructor
    · intro hsm
      rw [hget, hfold]
      rw [if_pos hsm]
      rfl
    · intro hsm
      have hsm' : e.coord.secondary_mask ≠ UINT32_MAX := by
        rw [hsm]
        decide
      rw [hget, hfold]
      rw [if_neg hsm']
      rfl

/-- Witness for C2: a disk with an empty WAL and no shards — no WAL entry
matches and the shard-walk result (`NOTFOUND`) is returned. -/
theorem wal_last_match_decides_witness :
    (walMatches ⟨fun _ => 0, fun _ => 0⟩ ⟨2, [], []⟩ [5] = [] →
      disk.get ⟨fun _ => 0, fun _ => 0⟩ ⟨2, [], []⟩ [5] = some GetRes.notfound) ∧
    (∀ e, (walMatches ⟨fun _ => 0, fun _ => 0⟩ ⟨2, [], []⟩ [5]).getLast? = some e →
      (e.coord.secondary_mask = UINT32_MAX →
        disk.get ⟨fun _ => 0, fun _ => 0⟩ ⟨2, [], []⟩ [5] =
          some (GetRes.found e.value e.version)) ∧
      (e.coord.secondary_mask = 0 →
        disk.get ⟨fun _ => 0, fun _ => 0⟩ ⟨2, [], []⟩ [5] = some GetRes.notfound)) :=
  wal_last_match_decides ⟨fun _ => 0, fun _ => 0⟩ ⟨2, [], []⟩ [5] GetRes.notfound rfl

/-- C1: for a value of the disk's arity, `disk::put(k, v, ver)` succeeds and
an immediately following `disk::get(k)` (no intervening flush or other
operation) returns `Found(v, ver)`: the freshly appended WAL entry is the
last match and overrides any shard-walk result `r`. -/
theorem wal_visibility_after_put (hf : HashFns) (d : disk) (k : List Nat)
    (v : List (List Nat)) (ver : Nat) (har : v.length + 1 = d.arity) (r : GetRes)
    (hwalk : shard_walk (get_coordinate hf k) ((get_coordinate hf k).primary_hash) k
      GetRes.notfound d.shards = some r) :
    (disk.put hf d k v ver).1 = returncode.SUCCESS ∧
    disk.get hf (disk.put hf d k v ver).2 k = some (GetRes.found v ver) := by
  have hret : (disk.put hf d k v ver).1 = returncode.SUCCESS := by
    unfold disk.put
    rw [if_neg (fun hc => hc har)]
  have hd2 : (disk.put hf d k v ver).2 =
      { d with log := d.log ++ [⟨get_coordinate_kv hf k v, k, v, ver⟩] } := by
    unfold disk.put
    rw [if_neg (fun hc => hc har)]
  refine ⟨hret, ?_⟩
  rw [hd2]
  rw [disk_get_eq hf
    { d with log := d.log ++ [⟨get_coordinate_kv hf k v, k, v, ver⟩] } k r hwalk]
  have hproj : ({ d with log := d.log ++ [⟨get_coordinate_kv hf k v, k, v, ver⟩] } :
      disk).log = d.log ++ [⟨get_coordinate_kv hf k v, k, v, ver⟩] := rfl
  rw [hproj]
  rw [walFold_spec (get_coordinate hf k) k]
  have hpe : (⟨get_coordinate_kv hf k v, k, v, ver⟩ : log_entry).coord.primary_contains
      (get_coordinate hf k) ∧ (⟨get_coordinate_kv hf k v, k, v, ver⟩ : log_entry).key = k := by
    refine ⟨?_, rfl⟩
    show UINT32_MAX &&& (hf.hkey k % 4294967296 ^^^ hf.hkey k % 4294967296) = 0
    rw [Nat.xor_self, Nat.and_zero]
  rw [List.filter_append]
  have hfe : List.filter (fun e =>
      decide (e.coord.primary_contains (get_coordinate hf k) ∧ e.key = k))
      ([⟨get_coordinate_kv hf k v, k, v, ver⟩] : List log_entry) =
      ([⟨get_coordinate_kv hf k v, k, v, ver⟩] : List log_entry) := by
    simp [List.filter, hpe]
  rw [hfe, List.getLast?_concat]
  simp only [Option.elim]
  have hsm : (get_coordinate_kv hf k v).secondary_mask = UINT32_MAX := rfl
  simp [hsm]

/-- Every search-log invalidator of `oneBigRecordShard` is zero. -/
theorem oneBigRecordShard_logInv (i : Nat) : logInv oneBigRecordShard i = 0 := by
  show oneBigRecordShard.search_log (2 * i + 1) / 4294967296 % 4294967296 = 0
  show (if 2 * i + 1 = 1 then INDEX_SEGMENT_SIZE else 0) / 4294967296 % 4294967296 = 0
  by_cases h : 2 * i + 1 = 1
  · rw [if_pos h]
    decide
  · rw [if_neg h]

/-- C6 counterexample: on a shard holding one live, never-invalidated 3 MB
record, the claim's formula (stale bytes summed over entries with a nonzero
invalidator) gives 0, but `stale_space()` returns 1 — the loop always counts
the span from the last entry's offset to `m_data_offset` as stale. -/
theorem stale_space_claim_cx :
    stale_space oneBigRecordShard = 1 ∧ claim_stale_space oneBigRecordShard = 0 := by
  constructor
  · decide
  · unfold claim_stale_space
    have hb : claim_stale_bytes oneBigRecordShard = 0 := by
      unfold claim_stale_bytes
      apply List.sum_eq_zero
      intro x hx
      rw [List.mem_map] at hx
      obtain ⟨i, _, hxi⟩ := hx
      rw [← hxi, if_neg (fun hc => hc (oneBigRecordShard_logInv i))]
    have hc : claim_stale_count oneBigRecordShard = 0 := by
      unfold claim_stale_count
      apply List.length_eq_zero.mpr
      rw [List.filter_eq_nil_iff]
      intro i _
      simp only [decide_eq_true_eq]
      intro hcon
      exact hcon (oneBigRecordShard_logInv i)
    rw [hb, hc]
    decide

/-- The `stale_space` loop, started at entry `i ≥ 1` with the running `start`
offset, accumulates exactly `staleTail`: entry `j`'s invalidator gates record
`j-1`'s length, and the final span up to `m_data_offset` is always added.
`n` is the length of the live (nonzero-offset) prefix of the search log. -/
theorem staleLoop_eq_staleTail (s : Shard) (n : Nat)
    (hn : n ≤ SEARCH_INDEX_ENTRIES)
    (hlive : ∀ i, i < n → logOff s i ≠ 0)
    (hzero : ∀ i, i < SEARCH_INDEX_ENTRIES → n ≤ i → logOff s i = 0) :
    ∀ c i sd sn start, 1 ≤ i → i + c = n → start = logOff s (i - 1) →
      staleLoop s i (SEARCH_INDEX_ENTRIES - i) start sd sn =
        (sd + (staleTail s i c).1, sn + (staleTail s i c).2) := by
  intro c
  induction c with
  | zero =>
    intro i sd sn start h1 hic hstart
    subst hstart
    rcases Nat.lt_or_ge i SEARCH_INDEX_ENTRIES with hlt | hge
    · have hfuel : SEARCH_INDEX_ENTRIES - i = (SEARCH_INDEX_ENTRIES - i - 1) + 1 := by
        have hS : (SEARCH_INDEX_ENTRIES : Nat) = 65536 := rfl
        omega
      rw [hfuel]
      show (if s.search_log (2 * i + 1) % 4294967296 = 0 then _ else _) = _
      rw [if_pos (show s.search_log (2 * i + 1) % 4294967296 = 0 from
        hzero i hlt (by omega))]
      rfl
    · have hfuel : SEARCH_INDEX_ENTRIES - i = 0 := by omega
      rw [hfuel]
      rfl
  | succ c ih =>
    intro i sd sn start h1 hic hstart
    subst hstart
    have hiS : i < SEARCH_INDEX_ENTRIES := by omega
    have hfuel : SEARCH_INDEX_ENTRIES - i = (SEARCH_INDEX_ENTRIES - (i + 1)) + 1 := by
      omega
    rw [hfuel]
    show (if s.search_log (2 * i + 1) % 4294967296 = 0 then _ else _) = _
    rw [if_neg (show ¬ s.search_log (2 * i + 1) % 4294967296 = 0 from
      hlive i (by omega))]
    have hstart' : (s.search_log (2 * i + 1) % 4294967296 : Nat) =
        logOff s (i + 1 - 1) := by
      rw [Nat.add_sub_cancel]
      rfl
    by_cases hinv : 0 < s.search_log (2 * i + 1) / 4294967296 % 4294967296
    · rw [if_pos hinv]
      rw [ih (i + 1) (sd + usub32 (s.search_log (2 * i + 1) % 4294967296)
        (logOff s (i - 1))) (sn + 1) (s.search_log (2 * i + 1) % 4294967296)
        (by omega) (by omega) hstart']
      show _ = (sd + (if 0 < s.search_log (2 * i + 1) / 4294967296 % 4294967296 then
          usub32 (logOff s i) (logOff s (i - 1)) + (staleTail s (i + 1) c).1
        else (staleTail s (i + 1) c).1),
        sn + (if 0 < s.search_log (2 * i + 1) / 4294967296 % 4294967296 then
          1 + (staleTail s (i + 1) c).2
        else (staleTail s (i + 1) c).2))
      rw [if_pos hinv, if_pos hinv]
      simp only [Prod.mk.injEq]
      constructor
      · show sd + usub32 (logOff s i) (logOff s (i - 1)) + (staleTail s (i + 1) c).1 = _
        omega
      · omega
    · rw [if_neg hinv]
      rw [ih (i + 1) sd sn (s.search_log (2 * i + 1) % 4294967296)
        (by omega) (by omega) hstart']
      show _ = (sd + (if 0 < s.search_log (2 * i + 1) / 4294967296 % 4294967296 then
          usub32 (logOff s i) (logOff s (i - 1)) + (staleTail s (i + 1) c).1
        else (staleTail s (i + 1) c).1),
        sn + (if 0 < s.search_log (2 * i + 1) / 4294967296 % 4294967296 then
          1 + (staleTail s (i + 1) c).2
        else (staleTail s (i + 1) c).2))
      rw [if_neg hinv, if_neg hinv]

/-- C6 amended: on a shard whose search log has a live prefix of `n`
nonzero-offset entries followed by zeros, `stale_space()` equals
`max(100·SB/DATA_SEGMENT_SIZE, 100·SC/SEARCH_INDEX_ENTRIES)` where
`(SB, SC) = staleTail s 1 (n-1)`: entry `i`'s nonzero invalidator
(for `i = 1 … n-1`) contributes record `i-1`'s length
(`offset(i) - offset(i-1)`, 32-bit subtraction), entry 0's invalidator is
never consulted, and the final span `m_data_offset - offset(n-1)` (the whole
prefix below `m_data_offset` when the log is empty) is always added as stale,
with one extra stale count when it is nonzero. -/
theorem stale_space_code_formula (s : Shard) (n : Nat)
    (hn : n ≤ SEARCH_INDEX_ENTRIES)
    (hlive : ∀ i, i < n → logOff s i ≠ 0)
    (hzero : ∀ i, i < SEARCH_INDEX_ENTRIES → n ≤ i → logOff s i = 0) :
    stale_space s =
      max (100 * (staleTail s 1 (n - 1)).1 / DATA_SEGMENT_SIZE)
          (100 * (staleTail s 1 (n - 1)).2 / SEARCH_INDEX_ENTRIES) := by
  rcases Nat.eq_zero_or_pos n with hn0 | hnpos
  · subst hn0
    have h0 : logOff s 0 = 0 := hzero 0 (by decide) (by omega)
    have h1 : logOff s 1 = 0 := hzero 1 (by decide) (by omega)
    have hf : (SEARCH_INDEX_ENTRIES - 1 : Nat) = 65534 + 1 := rfl
    show max (100 * (staleLoop s 1 (SEARCH_INDEX_ENTRIES - 1)
        (s.search_log 1 % 4294967296) 0 0).1 / DATA_SEGMENT_SIZE)
      (100 * (staleLoop s 1 (SEARCH_INDEX_ENTRIES - 1)
        (s.search_log 1 % 4294967296) 0 0).2 / SEARCH_INDEX_ENTRIES) = _
    rw [hf]
    have hloop : staleLoop s 1 (65534 + 1) (s.search_log 1 % 4294967296) 0 0 =
        (0 + (staleTail s 1 0).1, 0 + (staleTail s 1 0).2) := by
      show (if s.search_log (2 * 1 + 1) % 4294967296 = 0 then _ else _) = _
      rw [if_pos (show s.search_log (2 * 1 + 1) % 4294967296 = 0 from h1)]
      rfl
    rw [hloop]
    simp only [Nat.zero_add]
  · have hloop := staleLoop_eq_staleTail s n hn hlive hzero (n - 1) 1 0 0
      (s.search_log 1 % 4294967296) (by omega) (by omega) rfl
    show max (100 * (staleLoop s 1 (SEARCH_INDEX_ENTRIES - 1)
        (s.search_log 1 % 4294967296) 0 0).1 / DATA_SEGMENT_SIZE)
      (100 * (staleLoop s 1 (SEARCH_INDEX_ENTRIES - 1)
        (s.search_log 1 % 4294967296) 0 0).2 / SEARCH_INDEX_ENTRIES) = _
    rw [hloop]
    simp only [Nat.zero_add]

/-- Witness for C6's amended claim: `oneBigRecordShard` has a live prefix of
one entry; its `stale_space()` of 1 equals the code formula. -/
theorem stale_space_code_formula_witness :
    stale_space oneBigRecordShard =
      max (100 * (staleTail oneBigRecordShard 1 (1 - 1)).1 / DATA_SEGMENT_SIZE)
          (100 * (staleTail oneBigRecordShard 1 (1 - 1)).2 / SEARCH_INDEX_ENTRIES) :=
  stale_space_code_formula oneBigRecordShard 1 (by decide)
    (fun i hi => by
      have hi0 : i = 0 := by omega
      subst hi0
      decide)
    (fun i hiS h1 => by
      show oneBigRecordShard.search_log (2 * i + 1) % 4294967296 = 0
      show (if 2 * i + 1 = 1 then INDEX_SEGMENT_SIZE else 0) % 4294967296 = 0
      rw [if_neg (by omega : ¬ 2 * i + 1 = 1)])

/-- Witness for C1: a fresh empty disk of arity 1, key `[7]`, empty value,
version 3. -/
theorem wal_visibility_after_put_witness :
    (disk.put ⟨fun _ => 0, fun _ => 0⟩ ⟨1, [], []⟩ [7] [] 3).1 =
      returncode.SUCCESS ∧
    disk.get ⟨fun _ => 0, fun _ => 0⟩
      (disk.put ⟨fun _ => 0, fun _ => 0⟩ ⟨1, [], []⟩ [7] [] 3).2 [7] =
      some (GetRes.found [] 3) :=
  wal_visibility_after_put ⟨fun _ => 0, fun _ => 0⟩ ⟨1, [], []⟩ [7] [] 3 rfl
    GetRes.notfound rfl

end Hyperdisk
